import Mathlib

/-!
Verification of the classification core of the waste-sorting program
(`脚本3号.py`) against its natural-language specification.

The Python source is shallowly embedded below.  Python floats are modelled
as exact rationals (`ℚ`), Python dicts keyed by categories as association
lists in insertion order (`defaultdict` getitem-on-missing appends a key at
the end), and code paths that raise a Python exception are modelled with
`Except String`: an `.error` value carries the exception's message.  Two
exception paths matter here:

* `RuleEngine.apply_rules` iterates `for category in scores:` and, inside
  the loop body for the dampening state rule, executes
  `scores[GarbageCategory.OTHER] += 0.2` on a `defaultdict`.  When `OTHER`
  is not yet a key this inserts a new key into the dict being iterated, and
  CPython's dict iterator then raises
  `RuntimeError: dictionary changed size during iteration`.
* `GarbageKnowledgeBase.classify_by_text` executes
  `matched_items[item] = score` on a plain dict keyed by `GarbageItem`.
  `GarbageItem` is declared with a bare `@dataclass` (eq=True, frozen=False),
  so its `__hash__` is set to `None` and the first such assignment raises
  `TypeError: unhashable type: 'GarbageItem'`.  Consequently the
  substring-scoring path of `classify_by_text` errors out exactly when some
  item accumulates a positive score; the sort / top-5 tail of the function
  is unreachable.

String lowering is modelled with `str_lower` (ASCII case folding);
every string in the program's static tables is Chinese text without cased
letters, for which Python's `str.lower` agrees.
-/

namespace GarbageSys

attribute [local semireducible] Rat.mul Rat.add Rat.sub Rat.inv Rat.ofScientific

/-- Decidable equality of `Except` results, for evaluating the embedding on
concrete inputs. -/
instance exceptDecEq {α β : Type} [DecidableEq α] [DecidableEq β] :
    DecidableEq (Except α β) := fun a b =>
  match a, b with
  | .ok x, .ok y =>
    if h : x = y then .isTrue (by rw [h]) else .isFalse (by intro he; cases he; exact h rfl)
  | .error x, .error y =>
    if h : x = y then .isTrue (by rw [h]) else .isFalse (by intro he; cases he; exact h rfl)
  | .ok _, .error _ => .isFalse (by intro he; cases he)
  | .error _, .ok _ => .isFalse (by intro he; cases he)

/-- Enumeration `GarbageCategory` from the source (declaration order
RECYCLABLE, HAZARDOUS, KITCHEN, OTHER; iteration over the enum and the
tie-break insertion order both follow this order). -/
inductive GarbageCategory : Type where
  | RECYCLABLE : GarbageCategory
  | HAZARDOUS : GarbageCategory
  | KITCHEN : GarbageCategory
  | OTHER : GarbageCategory
deriving DecidableEq, Repr

open GarbageCategory

/-- Dataclass `GarbageItem` from the source.  (In Python it is a non-frozen
dataclass with `eq=True`, hence unhashable.) -/
structure GarbageItem : Type where
  name : String
  category : GarbageCategory
  description : String
  disposal_method : String
  tips : String
  keywords : List String
deriving DecidableEq, Repr

/-- Python substring test `needle in hay` on code-point sequences. -/
def subList (n h : List Char) : Bool :=
  (List.range (h.length + 1)).any (fun i => List.isPrefixOf n (h.drop i))

/-- Python `needle in hay` for strings. -/
def strIn (needle hay : String) : Bool :=
  subList needle.toList hay.toList

/-- Python `str.lower()`.  Defined by mapping `Char.toLower` over the
string's characters (ASCII case folding; identical to CPython's `lower` on
the program's static tables, which contain no cased non-ASCII letters). -/
def str_lower (s : String) : String :=
  String.mk (s.data.map Char.toLower)

/-- The fixed catalog built by `GarbageKnowledgeBase._load_default_data`. -/
def default_items : List GarbageItem := [
  { name := "塑料瓶", category := RECYCLABLE,
    description := "塑料制品，常见于饮料包装",
    disposal_method := "清洗干净，压扁后投放",
    tips := "瓶盖通常属于其他垃圾",
    keywords := ["塑料", "瓶子", "饮料瓶", "矿泉水瓶"] },
  { name := "易拉罐", category := RECYCLABLE,
    description := "金属制品，常见于饮料包装",
    disposal_method := "压扁后投放",
    tips := "保持干燥清洁",
    keywords := ["易拉罐", "铝罐", "金属", "罐头"] },
  { name := "报纸", category := RECYCLABLE,
    description := "纸制品，可回收利用",
    disposal_method := "叠放整齐后投放",
    tips := "受污染的纸不属于可回收物",
    keywords := ["报纸", "纸张", "纸制品", "废纸"] },
  { name := "玻璃瓶", category := RECYCLABLE,
    description := "玻璃制品，可回收利用",
    disposal_method := "轻放避免破碎",
    tips := "有破损的玻璃要小心处理",
    keywords := ["玻璃", "瓶子", "玻璃瓶", "酒瓶"] },
  { name := "电池", category := HAZARDOUS,
    description := "含重金属，对环境有害",
    disposal_method := "投放至有害垃圾桶",
    tips := "不要随意丢弃",
    keywords := ["电池", "干电池", "充电电池", "锂电池"] },
  { name := "过期药品", category := HAZARDOUS,
    description := "化学物质，可能污染环境",
    disposal_method := "投放至有害垃圾桶",
    tips := "最好保持原包装",
    keywords := ["药品", "过期药", "西药", "中药"] },
  { name := "灯管", category := HAZARDOUS,
    description := "含汞，有害物质",
    disposal_method := "轻放避免破碎",
    tips := "节能灯也属于此类",
    keywords := ["灯管", "日光灯", "节能灯", "灯泡"] },
  { name := "油漆桶", category := HAZARDOUS,
    description := "化学物质，有害环境",
    disposal_method := "密封后投放",
    tips := "残留油漆要倒出",
    keywords := ["油漆", "涂料", "油漆桶", "颜料"] },
  { name := "剩饭剩菜", category := KITCHEN,
    description := "食物残渣，易腐烂",
    disposal_method := "沥干水分后投放",
    tips := "尽量去除包装",
    keywords := ["剩饭", "剩菜", "饭菜", "食物残渣"] },
  { name := "果皮", category := KITCHEN,
    description := "水果残余，有机质",
    disposal_method := "直接投放",
    tips := "柚子皮等较硬的可作为其他垃圾",
    keywords := ["果皮", "水果皮", "香蕉皮", "苹果核"] },
  { name := "茶叶渣", category := KITCHEN,
    description := "植物残余，有机质",
    disposal_method := "沥干水分后投放",
    tips := "茶包要分开处理",
    keywords := ["茶叶", "茶渣", "茶包", "茶叶渣"] },
  { name := "蛋壳", category := KITCHEN,
    description := "食物残余，有机质",
    disposal_method := "直接投放",
    tips := "保持干燥",
    keywords := ["蛋壳", "鸡蛋壳", "鸭蛋壳"] },
  { name := "卫生纸", category := OTHER,
    description := "受污染纸张，不可回收",
    disposal_method := "直接投放",
    tips := "遇水即溶的纸张",
    keywords := ["卫生纸", "纸巾", "厕纸", "面巾纸"] },
  { name := "陶瓷碎片", category := OTHER,
    description := "不可回收材料",
    disposal_method := "包裹后投放",
    tips := "小心划伤",
    keywords := ["陶瓷", "瓷器", "碎片", "碗碟"] },
  { name := "烟头", category := OTHER,
    description := "烟草残余，有害物质",
    disposal_method := "确保熄灭后投放",
    tips := "含有害物质",
    keywords := ["烟头", "香烟", "烟蒂", "烟灰"] },
  { name := "塑料袋", category := OTHER,
    description := "受污染塑料，不可回收",
    disposal_method := "直接投放",
    tips := "干净的可作为可回收物",
    keywords := ["塑料袋", "塑料膜", "包装袋"] }]

/-- The first catalog item (its name is an exact-match or substring target
in several claims). -/
def plastic_bottle_item : GarbageItem :=
  { name := "塑料瓶", category := RECYCLABLE,
    description := "塑料制品，常见于饮料包装",
    disposal_method := "清洗干净，压扁后投放",
    tips := "瓶盖通常属于其他垃圾",
    keywords := ["塑料", "瓶子", "饮料瓶", "矿泉水瓶"] }

/-- The 电池 catalog item (an exact-name query target). -/
def battery_item : GarbageItem :=
  { name := "电池", category := HAZARDOUS,
    description := "含重金属，对环境有害",
    disposal_method := "投放至有害垃圾桶",
    tips := "不要随意丢弃",
    keywords := ["电池", "干电池", "充电电池", "锂电池"] }

/-- `GarbageKnowledgeBase.search_by_name`: first catalog item such that the
lowercased query is a substring of the item name or vice versa. -/
def search_by_name (name : String) : Option GarbageItem :=
  let name_lower := str_lower name
  default_items.find? (fun it =>
    strIn name_lower (str_lower it.name) || strIn (str_lower it.name) name_lower)

/-- Per-item score accumulated by the substring-matching path of
`classify_by_text`: +0.4 if the query occurs in the item name,
+0.3 × matched/total keywords when some keyword occurs in the query,
+0.2 if the query occurs in the description.  `t` is the lowercased query;
keywords are matched un-lowered, exactly as in the source. -/
def item_score (t : String) (it : GarbageItem) : ℚ :=
  let s1 : ℚ := if strIn t (str_lower it.name) then 2/5 else 0
  let k := (it.keywords.filter (fun kw => strIn kw t)).length
  let s2 : ℚ := if 0 < k then (3/10) * ((k : ℚ) / (it.keywords.length : ℚ)) else 0
  let s3 : ℚ := if strIn t (str_lower it.description) then 1/5 else 0
  s1 + s2 + s3

/-- `GarbageKnowledgeBase.classify_by_text`.  The exact-name loop returns
`[(item, 1.0)]` at the first exact (lowercased) name match.  Otherwise the
source stores each positively scored item into the dict
`matched_items[item] = score`; `GarbageItem` is unhashable, so the first
such store raises `TypeError` — hence the `.error` outcome exactly when some
item scores positively, and `.ok []` when none does (the sort and top-5
slice of the source act on an empty dict in that case). -/
def classify_by_text (text : String) : Except String (List (GarbageItem × ℚ)) :=
  let t := (str_lower text)
  match default_items.find? (fun it => (str_lower it.name) == t) with
  | some it => .ok [(it, 1)]
  | none =>
    if default_items.any (fun it => decide (0 < item_score t it)) then
      .error "TypeError: unhashable type: GarbageItem"
    else
      .ok []

/-- Score maps: Python `defaultdict(float)` keyed by category, kept in
insertion order. -/
abbrev ScoreMap := List (GarbageCategory × ℚ)

/-- Python `scores[c] += v` on a `defaultdict(float)`: update the entry in
place if the key is present, else append the new key at the end. -/
def addTo : ScoreMap → GarbageCategory → ℚ → ScoreMap
  | [], c, v => [(c, v)]
  | p :: t, c, v => if p.1 = c then (p.1, p.2 + v) :: t else p :: addTo t c v

/-- Python `scores[c] *= f` for a key `c` known to be present: update the
entry in place (no-op when the key is absent — unreachable in the source). -/
def mul_at : ScoreMap → GarbageCategory → ℚ → ScoreMap
  | [], _, _ => []
  | p :: t, c, f => if p.1 = c then (p.1, p.2 * f) :: t else p :: mul_at t c f

/-- Python `scores.get(c)` as an option (first entry with key `c`). -/
def lookupScore : ScoreMap → GarbageCategory → Option ℚ
  | [], _ => none
  | p :: t, c => if p.1 = c then some p.2 else lookupScore t c

/-- Python `scores.get(c, 0)`. -/
def getScore (m : ScoreMap) (c : GarbageCategory) : ℚ :=
  (lookupScore m c).getD 0

/-- Sum of a score map's values (`sum(scores.values())`). -/
def sum_scores (m : ScoreMap) : ℚ :=
  (m.map (·.2)).sum

/-- Final step of `apply_rules` and `predict_from_image`: divide every
value by the total when the total is positive, else leave the map as is. -/
def normalize (m : ScoreMap) : ScoreMap :=
  if 0 < sum_scores m then m.map (fun p => (p.1, p.2 / sum_scores m)) else m

/-- Target of a material/usage rule: one category, or a category list the
weight is split over evenly. -/
inductive RuleTarget : Type where
  | single : GarbageCategory → RuleTarget
  | multi : List GarbageCategory → RuleTarget
deriving DecidableEq, Repr

/-- A material/usage rule record `{weight, category}` / `{weight, categories}`. -/
structure WeightedRule : Type where
  weight : ℚ
  target : RuleTarget
deriving DecidableEq, Repr

/-- A state rule record: `{weight, category}` or `{weight, effect}` with the
effect kept as its original string (the source dispatches on substrings of
this string). -/
inductive StateRuleBody : Type where
  | cat : ℚ → GarbageCategory → StateRuleBody
  | eff : ℚ → String → StateRuleBody
deriving DecidableEq, Repr

/-- `material_rules` table from `RuleEngine._define_rules`, in dict order. -/
def material_rules : List (String × WeightedRule) := [
  ("塑料", ⟨3/10, .multi [RECYCLABLE, OTHER]⟩),
  ("金属", ⟨2/5, .single RECYCLABLE⟩),
  ("纸张", ⟨3/10, .multi [RECYCLABLE, OTHER]⟩),
  ("玻璃", ⟨2/5, .single RECYCLABLE⟩),
  ("食物", ⟨1/2, .single KITCHEN⟩),
  ("化学", ⟨3/5, .single HAZARDOUS⟩),
  ("纺织品", ⟨1/5, .single OTHER⟩)]

/-- `usage_rules` table, in dict order. -/
def usage_rules : List (String × WeightedRule) := [
  ("包装", ⟨3/10, .multi [RECYCLABLE, OTHER]⟩),
  ("容器", ⟨2/5, .multi [RECYCLABLE, OTHER]⟩),
  ("电器", ⟨1/2, .single HAZARDOUS⟩),
  ("餐具", ⟨3/10, .single OTHER⟩),
  ("卫生", ⟨2/5, .single OTHER⟩)]

/-- `state_rules` table, in dict order. -/
def state_rules : List (String × StateRuleBody) := [
  ("潮湿", .cat (1/2) OTHER),
  ("干燥", .eff (1/5) "可回收性增加"),
  ("破碎", .eff (3/5) "可能变为其他垃圾"),
  ("污染", .cat (7/10) OTHER),
  ("清洁", .eff (1/10) "可回收性增加")]

/-- One matched material/usage rule: add the weight to the single target, or
split it evenly over the category list. -/
def apply_weighted_rule (m : ScoreMap) (r : WeightedRule) : ScoreMap :=
  match r.target with
  | .single c => addTo m c r.weight
  | .multi cs => cs.foldl (fun acc c => addTo acc c (r.weight / (cs.length : ℚ))) m

/-- Fold a material/usage rule table over the lowercased text `t`. -/
def fold_weighted (t : String) (rules : List (String × WeightedRule)) (m : ScoreMap) : ScoreMap :=
  rules.foldl (fun acc r => if strIn r.1 t then apply_weighted_rule acc r.2 else acc) m

/-- The "可回收性增加" effect: `for category in scores:` adds 0.1 to
RECYCLABLE when (and only when) RECYCLABLE already holds a score.  Only
existing values are updated, so the dict never grows here. -/
def increase_step (m : ScoreMap) : ScoreMap :=
  if ∃ p ∈ m, p.1 = RECYCLABLE then addTo m RECYCLABLE (1/10) else m

/-- Body of the dampening loop, iterating the key list captured at loop
entry.  For each non-OTHER key the source multiplies that key's score by
0.8 and then runs `scores[OTHER] += 0.2`; when OTHER is not a key of the
`defaultdict` this inserts a key into the dict under iteration, and the
iterator raises RuntimeError at its next step, which aborts `apply_rules`. -/
def dampen_loop : List GarbageCategory → ScoreMap → Except String ScoreMap
  | [], m => .ok m
  | k :: ks, m =>
    if k = OTHER then dampen_loop ks m
    else
      let m1 := mul_at m k (4/5)
      if ∃ p ∈ m1, p.1 = OTHER then dampen_loop ks (addTo m1 OTHER (1/5))
      else .error "RuntimeError: dictionary changed size during iteration"

/-- The "可能变为其他垃圾" (dampen-and-redistribute) effect of a matched
state trigger: run the dampening loop over the current keys. -/
def dampen_step (m : ScoreMap) : Except String ScoreMap :=
  dampen_loop (m.map (·.1)) m

/-- One matched state rule: direct category weight, or effect dispatch on
the effect string ("增加" → increase; "减少"/"变为" → dampen). -/
def apply_state_rule (m : ScoreMap) : StateRuleBody → Except String ScoreMap
  | .cat w c => .ok (addTo m c w)
  | .eff _ e =>
    if strIn "增加" e then .ok (increase_step m)
    else if strIn "减少" e || strIn "变为" e then dampen_step m
    else .ok m

/-- Fold the state rule table over the lowercased text, propagating the
RuntimeError of the dampening loop. -/
def fold_state (t : String) : List (String × StateRuleBody) → ScoreMap → Except String ScoreMap
  | [], m => .ok m
  | r :: rest, m =>
    match (if strIn r.1 t then apply_state_rule m r.2 else .ok m) with
    | .error e => .error e
    | .ok m2 => fold_state t rest m2

/-- `RuleEngine.apply_rules`: material rules, usage rules, state rules over
the lowercased text, then normalization. -/
def apply_rules (text : String) : Except String ScoreMap :=
  let t := (str_lower text)
  let m1 := fold_weighted t material_rules []
  let m2 := fold_weighted t usage_rules m1
  match fold_state t state_rules m2 with
  | .error e => .error e
  | .ok m3 => .ok (normalize m3)

/-- Is a state rule a direct-category (score-creating) rule? -/
def isCat : StateRuleBody → Bool
  | .cat _ _ => true
  | .eff _ _ => false

/-- Does some weight-carrying (score-creating) trigger of the three rule
tables occur in the lowercased text?  Effect-only state rules (干燥, 破碎,
清洁) do not create scores and are excluded. -/
def scoring_trigger_matched (text : String) : Bool :=
  let t := (str_lower text)
  material_rules.any (fun r => strIn r.1 t)
  || usage_rules.any (fun r => strIn r.1 t)
  || state_rules.any (fun r => strIn r.1 t && isCat r.2)

/-- Well-formedness of a material/usage rule record as present in the
static tables: positive weight and a nonempty category list. -/
def wf_weighted (r : WeightedRule) : Bool :=
  decide (0 < r.weight) &&
    (match r.target with | .single _ => true | .multi cs => !cs.isEmpty)

/-- Well-formedness of a state rule record: positive weight on the
direct-category form. -/
def wf_state : StateRuleBody → Bool
  | .cat w _ => decide (0 < w)
  | .eff _ _ => true

/-- Does any trigger of the three rule tables (weight-carrying or
effect-only) occur in the lowercased text? -/
def any_trigger_matched (text : String) : Bool :=
  let t := (str_lower text)
  material_rules.any (fun r => strIn r.1 t)
  || usage_rules.any (fun r => strIn r.1 t)
  || state_rules.any (fun r => strIn r.1 t)

/-- `model_config["rules_weight"]` from `ConfigManager._initialize`. -/
def rules_weight : ℚ := 7/10

/-- `model_config["keyword_weight"]` from `ConfigManager._initialize`. -/
def keyword_weight : ℚ := 3/10

/-- Stable descending insertion by score (earlier elements stay before
later elements with an equal score, as with Python's stable `sorted` with
`reverse=True`). -/
def insert_desc (p : GarbageCategory × ℚ) : List (GarbageCategory × ℚ) → List (GarbageCategory × ℚ)
  | [] => [p]
  | q :: t => if q.2 ≤ p.2 then p :: q :: t else q :: insert_desc p t

/-- `sorted(..., key=lambda x: x[1], reverse=True)` on category/score pairs. -/
def sort_desc : List (GarbageCategory × ℚ) → List (GarbageCategory × ℚ)
  | [] => []
  | p :: t => insert_desc p (sort_desc t)

/-- `RuleEngine.combine_with_keyword_search`: rule scores weighted by 0.7
plus per-item keyword confidences weighted by 0.3, accumulated into one
`defaultdict` and sorted descending.  An exception in either sub-call
propagates. -/
def combine_with_keyword_search (text : String) : Except String (List (GarbageCategory × ℚ)) :=
  match apply_rules text with
  | .error e => .error e
  | .ok rule_scores =>
    match classify_by_text text with
    | .error e => .error e
    | .ok keyword_results =>
      let c1 := rule_scores.foldl (fun acc p => addTo acc p.1 (p.2 * rules_weight)) []
      let c2 := keyword_results.foldl (fun acc p => addTo acc p.1.category (p.2 * keyword_weight)) c1
      .ok (sort_desc c2)

/-- The fields of `SimpleImageAnalyzer.analyze_image`'s result that
`predict_from_image` reads.  Decoding and pixel statistics happen outside
the classification core; a failed analysis is modelled as `Option.none` at
the call site. -/
structure ImageAnalysis : Type where
  dominant : ℕ × ℕ × ℕ
  brightness : ℚ
  contrast : ℚ
deriving DecidableEq, Repr

/-- Python truthiness of the optional `text_hint` argument (`None` and `""`
are falsy). -/
def hint_truthy : Option String → Bool
  | none => false
  | some h => !h.isEmpty

/-- The score map accumulated by `predict_from_image`'s four
brightness/contrast/color rules, before the text hint and the 0.1 floor. -/
def image_base_scores (a : ImageAnalysis) : ScoreMap :=
  let m : ScoreMap := []
  let m := if 3/5 < a.brightness ∧ 3/10 < a.contrast then addTo m RECYCLABLE (2/5) else m
  let m := if a.brightness < 2/5 ∧ a.contrast < 1/5 then addTo m KITCHEN (3/10) else m
  let m := if 150 < a.dominant.1 ∧ a.brightness < 1/2 then addTo m HAZARDOUS (3/10) else m
  if 3/10 ≤ a.brightness ∧ a.brightness ≤ 7/10 ∧ a.contrast < 1/4 then addTo m OTHER (3/10) else m

/-- The score map accumulated by `predict_from_image`'s rules plus the
text-hint bonus (a truthy hint adds a flat +0.2 to the first keyword group
that matches), before the 0.1 floor. -/
def image_rule_scores (a : ImageAnalysis) (hint : Option String) : ScoreMap :=
  let m := image_base_scores a
  match hint with
  | none => m
  | some h =>
    if h.isEmpty then m
    else
      let tl := (str_lower h)
      if ["塑料", "金属", "玻璃"].any (fun kw => strIn kw tl) then addTo m RECYCLABLE (1/5)
      else if ["电池", "药品", "油漆"].any (fun kw => strIn kw tl) then addTo m HAZARDOUS (1/5)
      else if ["食物", "果皮", "剩饭"].any (fun kw => strIn kw tl) then addTo m KITCHEN (1/5)
      else m

/-- The enum's declaration order, as iterated by
`for category in GarbageCategory`. -/
def all_categories : List GarbageCategory := [RECYCLABLE, HAZARDOUS, KITCHEN, OTHER]

/-- The baseline floor of `predict_from_image`: every category absent from
the score map is set to 0.1 (appended in enum order). -/
def floor_categories (m : ScoreMap) : ScoreMap :=
  all_categories.foldl
    (fun acc c => if ∃ p ∈ acc, p.1 = c then acc else acc ++ [(c, 1/10)]) m

/-- `SimpleImageAnalyzer.predict_from_image` given the analysis outcome
(`none` models the `"error" in analysis` fallback) and the optional hint. -/
def predict_from_image (analysis : Option ImageAnalysis) (hint : Option String) :
    List (GarbageCategory × ℚ) :=
  match analysis with
  | none => if hint_truthy hint then [(OTHER, 1/2)] else [(OTHER, 3/10)]
  | some a => sort_desc (normalize (floor_categories (image_rule_scores a hint)))

/-- Arithmetic mean of a list of rationals. -/
def mean_q (xs : List ℚ) : ℚ := xs.sum / (xs.length : ℚ)

/-- Sum of squared deviations from the mean. -/
def sq_dev_sum (xs : List ℚ) : ℚ :=
  (xs.map (fun x => (x - mean_q xs) ^ 2)).sum

/-- The grayscale byte samples as exact rationals. -/
def to_q (gray : List ℕ) : List ℚ := gray.map (fun p : ℕ => (p : ℚ))

/-- Bessel-corrected sample variance, as computed by `statistics.stdev`
squared (denominator `n - 1`). -/
def sample_variance (xs : List ℚ) : ℚ :=
  sq_dev_sum xs / ((xs.length : ℚ) - 1)

/-- Square of the contrast feature of `SimpleImageAnalyzer._analyze_texture`
over the grayscale samples: the source computes
`statistics.stdev(pixels) / 255` when there are at least two samples, else
0.  The irrational square root is tracked exactly via its square; all
comparisons are stated on squares (the square root is monotone on
nonnegatives). -/
def texture_contrast_sq (gray : List ℕ) : ℚ :=
  if 1 < gray.length then sample_variance (to_q gray) / 255 ^ 2 else 0

/-- Population variant of the contrast square, following the specification's
words ("population standard deviation of all luminance samples, divided by
255, … 0 if fewer than 2 samples"); kept for comparison with
`texture_contrast_sq`. -/
def spec_contrast_sq (gray : List ℕ) : ℚ :=
  if 1 < gray.length then
    (sq_dev_sum (to_q gray) / (gray.length : ℚ)) / 255 ^ 2
  else 0

/-- The dampen-and-redistribute effect as the specification words it:
multiply every non-Other score by 0.8 and add +0.2 to Other once per
matching trigger; kept for comparison with `dampen_step`. -/
def spec_dampen_step (m : ScoreMap) : ScoreMap :=
  addTo (m.map (fun p => if p.1 = OTHER then p else (p.1, p.2 * (4/5)))) OTHER (1/5)

/-- Every value of the score map is positive (invariant of all maps the
rule engine builds: every insertion adds a positive amount). -/
def AllPos (m : ScoreMap) : Prop := ∀ p ∈ m, 0 < p.2

/-- The keys of the score map are pairwise distinct (dict invariant). -/
def KeysNodup (m : ScoreMap) : Prop := (m.map (·.1)).Nodup

instance (m : ScoreMap) : Decidable (AllPos m) := by
  unfold AllPos
  exact List.decidableBAll _ m

instance (m : ScoreMap) : Decidable (KeysNodup m) := by
  unfold KeysNodup
  infer_instance

/-! ## Basic association-list lemmas -/

theorem addTo_ne_nil (m : ScoreMap) (c : GarbageCategory) (v : ℚ) :
    addTo m c v ≠ [] := by
  cases m with
  | nil => simp [addTo]
  | cons p t =>
    simp only [addTo]
    split <;> simp

theorem addTo_keys (m : ScoreMap) (c : GarbageCategory) (v : ℚ) :
    (addTo m c v).map (·.1) =
      if ∃ p ∈ m, p.1 = c then m.map (·.1) else m.map (·.1) ++ [c] := by
  induction m with
  | nil => simp [addTo]
  | cons p t ih =>
    simp only [addTo]
    by_cases hp : p.1 = c
    · simp [hp]
    · have hex : (∃ q ∈ p :: t, q.1 = c) ↔ (∃ q ∈ t, q.1 = c) := by
        constructor
        · rintro ⟨q, hq, hqc⟩
          rcases List.mem_cons.mp hq with rfl | hqt
          · exact absurd hqc hp
          · exact ⟨q, hqt, hqc⟩
        · rintro ⟨q, hq, hqc⟩
          exact ⟨q, List.mem_cons_of_mem _ hq, hqc⟩
      simp only [if_neg hp, List.map_cons, ih, hex]
      split <;> simp

theorem addTo_keys_of_mem (m : ScoreMap) (c : GarbageCategory) (v : ℚ)
    (h : ∃ p ∈ m, p.1 = c) :
    (addTo m c v).map (·.1) = m.map (·.1) := by
  rw [addTo_keys, if_pos h]

theorem mem_keys_addTo (m : ScoreMap) (c c' : GarbageCategory) (v : ℚ) :
    c' ∈ (addTo m c v).map (·.1) ↔ c' ∈ m.map (·.1) ∨ c' = c := by
  rw [addTo_keys]
  split <;> rename_i h
  · obtain ⟨p, hp, hpc⟩ := h
    constructor
    · exact Or.inl
    · rintro (hc | rfl)
      · exact hc
      · exact List.mem_map.mpr ⟨p, hp, hpc⟩
  · simp

theorem addTo_allpos (m : ScoreMap) (c : GarbageCategory) (v : ℚ)
    (hm : AllPos m) (hv : 0 < v) : AllPos (addTo m c v) := by
  induction m with
  | nil =>
    intro p hp
    simp only [addTo, List.mem_singleton] at hp
    simpa [hp] using hv
  | cons q t ih =>
    intro p hp
    simp only [addTo] at hp
    split at hp
    · rcases List.mem_cons.mp hp with rfl | hpt
      · have hq : 0 < q.2 := hm q (List.mem_cons_self _ _)
        simpa using add_pos hq hv
      · exact hm p (List.mem_cons_of_mem _ hpt)
    · rcases List.mem_cons.mp hp with rfl | hpt
      · exact hm p (List.mem_cons_self _ _)
      · exact ih (fun r hr => hm r (List.mem_cons_of_mem _ hr)) p hpt

theorem addTo_keysNodup (m : ScoreMap) (c : GarbageCategory) (v : ℚ)
    (hm : KeysNodup m) : KeysNodup (addTo m c v) := by
  unfold KeysNodup at *
  rw [addTo_keys]
  split <;> rename_i h
  · exact hm
  · have hc : c ∉ m.map (·.1) := by
      intro hc
      obtain ⟨p, hp, hpc⟩ := List.mem_map.mp hc
      exact h ⟨p, hp, hpc⟩
    rw [List.nodup_append]
    refine ⟨hm, List.nodup_singleton c, ?_⟩
    intro a ha hac
    rw [List.mem_singleton] at hac
    exact hc (hac ▸ ha)

theorem lookup_addTo_self (m : ScoreMap) (c : GarbageCategory) (v : ℚ) :
    lookupScore (addTo m c v) c = some (getScore m c + v) := by
  induction m with
  | nil => simp [addTo, lookupScore, getScore]
  | cons p t ih =>
    simp only [addTo]
    by_cases hp : p.1 = c
    · simp [lookupScore, hp, getScore]
    · simp [lookupScore, hp, ih, getScore]

theorem lookup_addTo_ne (m : ScoreMap) (c c' : GarbageCategory) (v : ℚ)
    (h : c' ≠ c) : lookupScore (addTo m c v) c' = lookupScore m c' := by
  induction m with
  | nil => simp [addTo, lookupScore, Ne.symm h]
  | cons p t ih =>
    simp only [addTo]
    by_cases hp : p.1 = c
    · simp [lookupScore, hp, Ne.symm h]
    · rw [if_neg hp]
      by_cases hpc : p.1 = c'
      · simp [lookupScore, hpc]
      · simp [lookupScore, hpc, ih]

theorem lookup_mul_at_self (m : ScoreMap) (c : GarbageCategory) (f : ℚ) :
    lookupScore (mul_at m c f) c = (lookupScore m c).map (· * f) := by
  induction m with
  | nil => simp [mul_at, lookupScore]
  | cons p t ih =>
    simp only [mul_at]
    by_cases hp : p.1 = c
    · simp [lookupScore, hp]
    · simp [lookupScore, hp, ih]

theorem lookup_mul_at_ne (m : ScoreMap) (c c' : GarbageCategory) (f : ℚ)
    (h : c' ≠ c) : lookupScore (mul_at m c f) c' = lookupScore m c' := by
  induction m with
  | nil => simp [mul_at, lookupScore]
  | cons p t ih =>
    simp only [mul_at]
    by_cases hp : p.1 = c
    · simp [lookupScore, hp, Ne.symm h]
    · rw [if_neg hp]
      by_cases hpc : p.1 = c'
      · simp [lookupScore, hpc]
      · simp [lookupScore, hpc, ih]

theorem mul_at_keys (m : ScoreMap) (c : GarbageCategory) (f : ℚ) :
    (mul_at m c f).map (·.1) = m.map (·.1) := by
  induction m with
  | nil => simp [mul_at]
  | cons p t ih =>
    simp only [mul_at]
    split <;> simp_all

theorem mul_at_allpos (m : ScoreMap) (c : GarbageCategory) (f : ℚ)
    (hm : AllPos m) (hf : 0 < f) : AllPos (mul_at m c f) := by
  induction m with
  | nil => intro p hp; simp [mul_at] at hp
  | cons q t ih =>
    intro p hp
    simp only [mul_at] at hp
    split at hp
    · rcases List.mem_cons.mp hp with rfl | hpt
      · exact mul_pos (hm q (List.mem_cons_self _ _)) hf
      · exact hm p (List.mem_cons_of_mem _ hpt)
    · rcases List.mem_cons.mp hp with rfl | hpt
      · exact hm p (List.mem_cons_self _ _)
      · exact ih (fun r hr => hm r (List.mem_cons_of_mem _ hr)) p hpt

theorem mem_keys_iff_exists (m : ScoreMap) (c : GarbageCategory) :
    c ∈ m.map (·.1) ↔ ∃ p ∈ m, p.1 = c := by
  simp [List.mem_map]

theorem sum_scores_nonneg (m : ScoreMap) (hm : AllPos m) : 0 ≤ sum_scores m := by
  induction m with
  | nil => simp [sum_scores]
  | cons p t ih =>
    have hp := hm p (List.mem_cons_self _ _)
    have ht := ih (fun r hr => hm r (List.mem_cons_of_mem _ hr))
    simp only [sum_scores, List.map_cons, List.sum_cons]
    exact add_nonneg hp.le ht

theorem sum_scores_pos (m : ScoreMap) (hm : AllPos m) (hne : m ≠ []) :
    0 < sum_scores m := by
  cases m with
  | nil => exact absurd rfl hne
  | cons p t =>
    have hp := hm p (List.mem_cons_self _ _)
    have ht := sum_scores_nonneg t (fun r hr => hm r (List.mem_cons_of_mem _ hr))
    simp only [sum_scores, List.map_cons, List.sum_cons]
    exact add_pos_of_pos_of_nonneg hp ht

/-! ## Sorting lemmas -/

theorem insert_desc_perm (p : GarbageCategory × ℚ) (l : List (GarbageCategory × ℚ)) :
    List.Perm (insert_desc p l) (p :: l) := by
  induction l with
  | nil => simp [insert_desc]
  | cons q t ih =>
    simp only [insert_desc]
    split
    · exact List.Perm.refl _
    · exact ((ih.cons q).trans (List.Perm.swap p q t))

theorem sort_desc_perm (l : List (GarbageCategory × ℚ)) : List.Perm (sort_desc l) l := by
  induction l with
  | nil => simp [sort_desc]
  | cons p t ih =>
    exact (insert_desc_perm p (sort_desc t)).trans (ih.cons p)

theorem mem_insert_desc (p q : GarbageCategory × ℚ) (l : List (GarbageCategory × ℚ)) :
    q ∈ insert_desc p l ↔ q = p ∨ q ∈ l := by
  have := (insert_desc_perm p l).mem_iff (a := q)
  simpa using this

theorem insert_desc_sorted (p : GarbageCategory × ℚ) (l : List (GarbageCategory × ℚ))
    (hl : l.Pairwise (fun x y => y.2 ≤ x.2)) :
    (insert_desc p l).Pairwise (fun x y => y.2 ≤ x.2) := by
  induction l with
  | nil => simp [insert_desc]
  | cons q t ih =>
    simp only [insert_desc]
    split <;> rename_i hq
    · refine List.Pairwise.cons ?_ hl
      intro y hy
      rcases List.mem_cons.mp hy with rfl | hyt
      · exact hq
      · exact le_trans (List.rel_of_pairwise_cons hl hyt) hq
    · have ht := (List.pairwise_cons.mp hl).2
      refine List.Pairwise.cons ?_ (ih ht)
      intro y hy
      rcases (mem_insert_desc p y t).mp hy with rfl | hyt
      · exact le_of_not_le hq
      · exact List.rel_of_pairwise_cons hl hyt

theorem sort_desc_sorted (l : List (GarbageCategory × ℚ)) :
    (sort_desc l).Pairwise (fun x y => y.2 ≤ x.2) := by
  induction l with
  | nil => simp [sort_desc]
  | cons p t ih => exact insert_desc_sorted p (sort_desc t) ih

/-! ## Normalization lemmas -/

theorem normalize_keys (m : ScoreMap) :
    (normalize m).map (·.1) = m.map (·.1) := by
  unfold normalize
  split
  · simp
  · rfl

theorem sum_scores_map_div (m : ScoreMap) (t : ℚ) :
    sum_scores (m.map (fun p => (p.1, p.2 / t))) = sum_scores m / t := by
  induction m with
  | nil => simp [sum_scores]
  | cons p l ih =>
    simp only [sum_scores, List.map_cons, List.sum_cons] at *
    rw [ih, add_div]

theorem normalize_sum (m : ScoreMap) (hm : AllPos m) (hne : m ≠ []) :
    sum_scores (normalize m) = 1 := by
  have hpos := sum_scores_pos m hm hne
  unfold normalize
  rw [if_pos hpos, sum_scores_map_div, div_self (ne_of_gt hpos)]

theorem normalize_allpos (m : ScoreMap) (hm : AllPos m) : AllPos (normalize m) := by
  unfold normalize
  split <;> rename_i h
  · intro p hp
    obtain ⟨q, hq, rfl⟩ := List.mem_map.mp hp
    exact div_pos (hm q hq) h
  · exact hm

theorem normalize_nonneg (m : ScoreMap) (hm : AllPos m) :
    ∀ p ∈ normalize m, 0 ≤ p.2 :=
  fun p hp => (normalize_allpos m hm p hp).le

theorem normalize_nil : normalize [] = [] := by
  simp [normalize, sum_scores]

theorem normalize_eq_nil_iff (m : ScoreMap) : normalize m = [] ↔ m = [] := by
  unfold normalize
  split
  · simp
  · exact Iff.rfl

theorem normalize_mem (m : ScoreMap) (c : GarbageCategory) (v : ℚ)
    (hv : (c, v) ∈ m) (hpos : 0 < sum_scores m) :
    (c, v / sum_scores m) ∈ normalize m := by
  unfold normalize
  rw [if_pos hpos]
  exact List.mem_map.mpr ⟨(c, v), hv, rfl⟩

/-! ## Material/usage rule-fold lemmas -/

theorem foldl_addTo_const_allpos (cs : List GarbageCategory) (m : ScoreMap) (v : ℚ)
    (hm : AllPos m) (hv : 0 < v) :
    AllPos (cs.foldl (fun acc c => addTo acc c v) m) := by
  induction cs generalizing m with
  | nil => exact hm
  | cons c rest ih => exact ih (addTo m c v) (addTo_allpos m c v hm hv)

theorem foldl_addTo_const_nodup (cs : List GarbageCategory) (m : ScoreMap) (v : ℚ)
    (hm : KeysNodup m) :
    KeysNodup (cs.foldl (fun acc c => addTo acc c v) m) := by
  induction cs generalizing m with
  | nil => exact hm
  | cons c rest ih => exact ih (addTo m c v) (addTo_keysNodup m c v hm)

theorem foldl_addTo_const_ne_nil (cs : List GarbageCategory) (m : ScoreMap) (v : ℚ)
    (h : m ≠ [] ∨ cs ≠ []) :
    cs.foldl (fun acc c => addTo acc c v) m ≠ [] := by
  induction cs generalizing m with
  | nil => exact h.resolve_right (fun hc => hc rfl)
  | cons c rest ih => exact ih (addTo m c v) (Or.inl (addTo_ne_nil m c v))

theorem apply_weighted_rule_allpos (m : ScoreMap) (r : WeightedRule)
    (hm : AllPos m) (hwf : wf_weighted r = true) : AllPos (apply_weighted_rule m r) := by
  have hw : 0 < r.weight := by
    have := (Bool.and_eq_true _ _).mp hwf |>.1
    exact of_decide_eq_true this
  unfold apply_weighted_rule
  cases ht : r.target with
  | single c => exact addTo_allpos m c r.weight hm hw
  | multi cs =>
    have hcs : cs ≠ [] := by
      have := (Bool.and_eq_true _ _).mp hwf |>.2
      rw [ht] at this
      simpa [List.isEmpty_iff] using this
    have hlen : (0 : ℚ) < (cs.length : ℚ) := by
      have : 0 < cs.length := List.length_pos.mpr hcs
      exact_mod_cast this
    exact foldl_addTo_const_allpos cs m _ hm (div_pos hw hlen)

theorem apply_weighted_rule_nodup (m : ScoreMap) (r : WeightedRule)
    (hm : KeysNodup m) : KeysNodup (apply_weighted_rule m r) := by
  unfold apply_weighted_rule
  cases r.target with
  | single c => exact addTo_keysNodup m c r.weight hm
  | multi cs => exact foldl_addTo_const_nodup cs m _ hm

theorem apply_weighted_rule_ne_nil_of_ne_nil (m : ScoreMap) (r : WeightedRule)
    (hm : m ≠ []) : apply_weighted_rule m r ≠ [] := by
  unfold apply_weighted_rule
  cases r.target with
  | single c => exact addTo_ne_nil m c r.weight
  | multi cs => exact foldl_addTo_const_ne_nil cs m _ (Or.inl hm)

theorem apply_weighted_rule_ne_nil_of_wf (m : ScoreMap) (r : WeightedRule)
    (hwf : wf_weighted r = true) : apply_weighted_rule m r ≠ [] := by
  unfold apply_weighted_rule
  cases ht : r.target with
  | single c => exact addTo_ne_nil m c r.weight
  | multi cs =>
    have hcs : cs ≠ [] := by
      have := (Bool.and_eq_true _ _).mp hwf |>.2
      rw [ht] at this
      simpa [List.isEmpty_iff] using this
    exact foldl_addTo_const_ne_nil cs m _ (Or.inr hcs)

theorem fold_weighted_allpos (t : String) (rules : List (String × WeightedRule))
    (m : ScoreMap) (hm : AllPos m) (hwf : ∀ r ∈ rules, wf_weighted r.2 = true) :
    AllPos (fold_weighted t rules m) := by
  induction rules generalizing m with
  | nil => exact hm
  | cons r rest ih =>
    simp only [fold_weighted, List.foldl_cons]
    by_cases hr : strIn r.1 t
    · rw [if_pos hr]
      exact ih _ (apply_weighted_rule_allpos m r.2 hm (hwf r (List.mem_cons_self _ _)))
        (fun q hq => hwf q (List.mem_cons_of_mem _ hq))
    · rw [if_neg hr]
      exact ih m hm (fun q hq => hwf q (List.mem_cons_of_mem _ hq))

theorem fold_weighted_nodup (t : String) (rules : List (String × WeightedRule))
    (m : ScoreMap) (hm : KeysNodup m) : KeysNodup (fold_weighted t rules m) := by
  induction rules generalizing m with
  | nil => exact hm
  | cons r rest ih =>
    simp only [fold_weighted, List.foldl_cons]
    by_cases hr : strIn r.1 t
    · rw [if_pos hr]
      exact ih _ (apply_weighted_rule_nodup m r.2 hm)
    · rw [if_neg hr]
      exact ih m hm

theorem fold_weighted_ne_nil_of_ne_nil (t : String) (rules : List (String × WeightedRule))
    (m : ScoreMap) (hm : m ≠ []) : fold_weighted t rules m ≠ [] := by
  induction rules generalizing m with
  | nil => exact hm
  | cons r rest ih =>
    simp only [fold_weighted, List.foldl_cons]
    by_cases hr : strIn r.1 t
    · rw [if_pos hr]
      exact ih _ (apply_weighted_rule_ne_nil_of_ne_nil m r.2 hm)
    · rw [if_neg hr]
      exact ih m hm

theorem fold_weighted_ne_nil_of_match (t : String) (rules : List (String × WeightedRule))
    (m : ScoreMap) (hmatch : rules.any (fun r => strIn r.1 t) = true)
    (hwf : ∀ r ∈ rules, wf_weighted r.2 = true) :
    fold_weighted t rules m ≠ [] := by
  induction rules generalizing m with
  | nil => simp at hmatch
  | cons r rest ih =>
    simp only [fold_weighted, List.foldl_cons]
    by_cases hr : strIn r.1 t
    · rw [if_pos hr]
      have h1 : apply_weighted_rule m r.2 ≠ [] :=
        apply_weighted_rule_ne_nil_of_wf m r.2 (hwf r (List.mem_cons_self _ _))
      exact fold_weighted_ne_nil_of_ne_nil t rest _ h1
    · rw [if_neg hr]
      have hmatch2 : rest.any (fun q => strIn q.1 t) = true := by
        rcases List.any_eq_true.mp hmatch with ⟨q, hq, hqt⟩
        rcases List.mem_cons.mp hq with rfl | hqrest
        · exact absurd hqt hr
        · exact List.any_eq_true.mpr ⟨q, hqrest, hqt⟩
      exact ih m hmatch2 (fun q hq => hwf q (List.mem_cons_of_mem _ hq))

theorem fold_weighted_id_of_no_match (t : String) (rules : List (String × WeightedRule))
    (m : ScoreMap) (hmatch : rules.any (fun r => strIn r.1 t) = false) :
    fold_weighted t rules m = m := by
  induction rules generalizing m with
  | nil => rfl
  | cons r rest ih =>
    simp only [List.any_cons, Bool.or_eq_false_iff] at hmatch
    simp only [fold_weighted, List.foldl_cons, hmatch.1, Bool.false_eq_true, if_false]
    exact ih m hmatch.2

/-! ## Dampening-loop and state-rule lemmas -/

theorem dampen_loop_keys (ks : List GarbageCategory) (m m' : ScoreMap)
    (h : dampen_loop ks m = .ok m') : m'.map (·.1) = m.map (·.1) := by
  induction ks generalizing m with
  | nil =>
    simp only [dampen_loop] at h
    cases h
    rfl
  | cons k ks ih =>
    simp only [dampen_loop] at h
    split at h
    · exact ih m h
    · split at h <;> rename_i hoth
      · have h1 := ih _ h
        rw [h1, addTo_keys_of_mem _ _ _ hoth, mul_at_keys]
      · cases h

theorem dampen_loop_allpos (ks : List GarbageCategory) (m m' : ScoreMap)
    (h : dampen_loop ks m = .ok m') (hm : AllPos m) : AllPos m' := by
  induction ks generalizing m with
  | nil =>
    simp only [dampen_loop] at h
    cases h
    exact hm
  | cons k ks ih =>
    simp only [dampen_loop] at h
    split at h
    · exact ih m h hm
    · split at h
      · exact ih _ h
          (addTo_allpos _ _ _ (mul_at_allpos m k (4/5) hm (by norm_num)) (by norm_num))
      · cases h

theorem dampen_step_keys (m m' : ScoreMap) (h : dampen_step m = .ok m') :
    m'.map (·.1) = m.map (·.1) :=
  dampen_loop_keys _ m m' h

theorem dampen_step_allpos (m m' : ScoreMap) (h : dampen_step m = .ok m')
    (hm : AllPos m) : AllPos m' :=
  dampen_loop_allpos _ m m' h hm

theorem increase_step_allpos (m : ScoreMap) (hm : AllPos m) :
    AllPos (increase_step m) := by
  unfold increase_step
  split
  · exact addTo_allpos m RECYCLABLE (1/10) hm (by norm_num)
  · exact hm

theorem increase_step_ne_nil (m : ScoreMap) (hm : m ≠ []) :
    increase_step m ≠ [] := by
  unfold increase_step
  split
  · exact addTo_ne_nil m RECYCLABLE (1/10)
  · exact hm

theorem increase_step_nodup (m : ScoreMap) (hm : KeysNodup m) :
    KeysNodup (increase_step m) := by
  unfold increase_step
  split
  · exact addTo_keysNodup m RECYCLABLE (1/10) hm
  · exact hm

theorem increase_step_nil : increase_step [] = [] := by
  simp [increase_step]

theorem apply_state_rule_ok_allpos (m : ScoreMap) (b : StateRuleBody) (m' : ScoreMap)
    (h : apply_state_rule m b = .ok m') (hm : AllPos m) (hwf : wf_state b = true) :
    AllPos m' := by
  cases b with
  | cat w c =>
    simp only [apply_state_rule] at h
    cases h
    exact addTo_allpos m c w hm (of_decide_eq_true hwf)
  | eff w e =>
    simp only [apply_state_rule] at h
    split at h
    · cases h
      exact increase_step_allpos m hm
    · split at h
      · exact dampen_step_allpos m m' h hm
      · cases h
        exact hm

theorem apply_state_rule_ok_ne_nil (m : ScoreMap) (b : StateRuleBody) (m' : ScoreMap)
    (h : apply_state_rule m b = .ok m') (hm : m ≠ []) : m' ≠ [] := by
  cases b with
  | cat w c =>
    simp only [apply_state_rule] at h
    cases h
    exact addTo_ne_nil m c w
  | eff w e =>
    simp only [apply_state_rule] at h
    split at h
    · cases h
      exact increase_step_ne_nil m hm
    · split at h
      · have hk := dampen_step_keys m m' h
        intro hnil
        rw [hnil] at hk
        exact hm (List.map_eq_nil_iff.mp hk.symm)
      · cases h
        exact hm

theorem apply_state_rule_ok_nodup (m : ScoreMap) (b : StateRuleBody) (m' : ScoreMap)
    (h : apply_state_rule m b = .ok m') (hm : KeysNodup m) : KeysNodup m' := by
  cases b with
  | cat w c =>
    simp only [apply_state_rule] at h
    cases h
    exact addTo_keysNodup m c w hm
  | eff w e =>
    simp only [apply_state_rule] at h
    split at h
    · cases h
      exact increase_step_nodup m hm
    · split at h
      · unfold KeysNodup
        rw [dampen_step_keys m m' h]
        exact hm
      · cases h
        exact hm

theorem apply_state_rule_cat_ne_nil (m : ScoreMap) (w : ℚ) (c : GarbageCategory)
    (m' : ScoreMap) (h : apply_state_rule m (.cat w c) = .ok m') : m' ≠ [] := by
  simp only [apply_state_rule] at h
  cases h
  exact addTo_ne_nil m c w

theorem apply_state_rule_eff_nil (w : ℚ) (e : String) :
    apply_state_rule [] (.eff w e) = .ok [] := by
  simp only [apply_state_rule]
  split
  · rw [increase_step_nil]
  · split
    · rfl
    · rfl

theorem fold_state_ok_allpos (t : String) (rules : List (String × StateRuleBody))
    (m m' : ScoreMap) (h : fold_state t rules m = .ok m') (hm : AllPos m)
    (hwf : ∀ r ∈ rules, wf_state r.2 = true) : AllPos m' := by
  induction rules generalizing m with
  | nil =>
    simp only [fold_state] at h
    cases h
    exact hm
  | cons r rest ih =>
    simp only [fold_state] at h
    by_cases hr : strIn r.1 t
    · rw [if_pos hr] at h
      cases hstep : apply_state_rule m r.2 with
      | error e => rw [hstep] at h; cases h
      | ok m2 =>
        rw [hstep] at h
        exact ih _ h
          (apply_state_rule_ok_allpos m r.2 m2 hstep hm (hwf r (List.mem_cons_self _ _)))
          (fun q hq => hwf q (List.mem_cons_of_mem _ hq))
    · rw [if_neg hr] at h
      exact ih m h hm (fun q hq => hwf q (List.mem_cons_of_mem _ hq))

theorem fold_state_ok_ne_nil (t : String) (rules : List (String × StateRuleBody))
    (m m' : ScoreMap) (h : fold_state t rules m = .ok m') (hm : m ≠ []) : m' ≠ [] := by
  induction rules generalizing m with
  | nil =>
    simp only [fold_state] at h
    cases h
    exact hm
  | cons r rest ih =>
    simp only [fold_state] at h
    by_cases hr : strIn r.1 t
    · rw [if_pos hr] at h
      cases hstep : apply_state_rule m r.2 with
      | error e => rw [hstep] at h; cases h
      | ok m2 =>
        rw [hstep] at h
        exact ih _ h (apply_state_rule_ok_ne_nil m r.2 m2 hstep hm)
    · rw [if_neg hr] at h
      exact ih m h hm

theorem fold_state_ok_nodup (t : String) (rules : List (String × StateRuleBody))
    (m m' : ScoreMap) (h : fold_state t rules m = .ok m') (hm : KeysNodup m) :
    KeysNodup m' := by
  induction rules generalizing m with
  | nil =>
    simp only [fold_state] at h
    cases h
    exact hm
  | cons r rest ih =>
    simp only [fold_state] at h
    by_cases hr : strIn r.1 t
    · rw [if_pos hr] at h
      cases hstep : apply_state_rule m r.2 with
      | error e => rw [hstep] at h; cases h
      | ok m2 =>
        rw [hstep] at h
        exact ih _ h (apply_state_rule_ok_nodup m r.2 m2 hstep hm)
    · rw [if_neg hr] at h
      exact ih m h hm

theorem fold_state_ne_nil_of_cat_match (t : String)
    (rules : List (String × StateRuleBody)) (m m' : ScoreMap)
    (h : fold_state t rules m = .ok m')
    (hmatch : rules.any (fun r => strIn r.1 t && isCat r.2) = true) : m' ≠ [] := by
  induction rules generalizing m with
  | nil => simp at hmatch
  | cons r rest ih =>
    simp only [fold_state] at h
    by_cases hr : strIn r.1 t
    · rw [if_pos hr] at h
      cases hstep : apply_state_rule m r.2 with
      | error e => rw [hstep] at h; cases h
      | ok m2 =>
        rw [hstep] at h
        by_cases hcat : isCat r.2 = true
        · cases r2 : r.2 with
          | cat w c =>
            rw [r2] at hstep
            exact fold_state_ok_ne_nil t rest m2 m' h
              (apply_state_rule_cat_ne_nil m w c m2 hstep)
          | eff w e => rw [r2] at hcat; simp [isCat] at hcat
        · have hmatch2 : rest.any (fun q => strIn q.1 t && isCat q.2) = true := by
            rcases List.any_eq_true.mp hmatch with ⟨q, hq, hqt⟩
            rcases List.mem_cons.mp hq with rfl | hqrest
            · rw [Bool.and_eq_true] at hqt
              exact absurd hqt.2 hcat
            · exact List.any_eq_true.mpr ⟨q, hqrest, hqt⟩
          exact ih _ h hmatch2
    · rw [if_neg hr] at h
      have hmatch2 : rest.any (fun q => strIn q.1 t && isCat q.2) = true := by
        rcases List.any_eq_true.mp hmatch with ⟨q, hq, hqt⟩
        rcases List.mem_cons.mp hq with rfl | hqrest
        · rw [Bool.and_eq_true] at hqt
          exact absurd hqt.1 hr
        · exact List.any_eq_true.mpr ⟨q, hqrest, hqt⟩
      exact ih m h hmatch2

theorem fold_state_nil_of_no_cat (t : String) (rules : List (String × StateRuleBody))
    (hmatch : rules.any (fun r => strIn r.1 t && isCat r.2) = false) :
    fold_state t rules [] = .ok [] := by
  induction rules with
  | nil => rfl
  | cons r rest ih =>
    simp only [List.any_cons, Bool.or_eq_false_iff] at hmatch
    simp only [fold_state]
    by_cases hr : strIn r.1 t
    · rw [if_pos hr]
      cases r2 : r.2 with
      | cat w c =>
        have h1 := hmatch.1
        rw [Bool.and_eq_false_iff] at h1
        rcases h1 with hf | hf
        · exact absurd hr (by simp [hf])
        · rw [r2] at hf
          simp [isCat] at hf
      | eff w e =>
        rw [apply_state_rule_eff_nil w e]
        exact ih hmatch.2
    · rw [if_neg hr]
      exact ih hmatch.2

/-! ## Further lookup lemmas -/

theorem lookup_isSome_of_mem (m : ScoreMap) (c : GarbageCategory)
    (h : ∃ p ∈ m, p.1 = c) : ∃ v, lookupScore m c = some v := by
  induction m with
  | nil => simp at h
  | cons p t ih =>
    by_cases hp : p.1 = c
    · exact ⟨p.2, by simp [lookupScore, hp]⟩
    · have h2 : ∃ q ∈ t, q.1 = c := by
        obtain ⟨q, hq, hqc⟩ := h
        rcases List.mem_cons.mp hq with rfl | hqt
        · exact absurd hqc hp
        · exact ⟨q, hqt, hqc⟩
      obtain ⟨v, hv⟩ := ih h2
      exact ⟨v, by simp [lookupScore, hp, hv]⟩

theorem lookup_eq_none_of_not_mem (m : ScoreMap) (c : GarbageCategory)
    (h : ¬ ∃ p ∈ m, p.1 = c) : lookupScore m c = none := by
  induction m with
  | nil => rfl
  | cons p t ih =>
    by_cases hp : p.1 = c
    · exact absurd ⟨p, List.mem_cons_self _ _, hp⟩ h
    · have h2 : ¬ ∃ q ∈ t, q.1 = c := by
        intro ⟨q, hq, hqc⟩
        exact h ⟨q, List.mem_cons_of_mem _ hq, hqc⟩
      simp [lookupScore, hp, ih h2]

theorem filter_map_fst_length (m : ScoreMap) :
    ((m.map (·.1)).filter (fun k => k ≠ OTHER)).length
      = (m.filter (fun p => p.1 ≠ OTHER)).length := by
  induction m with
  | nil => rfl
  | cons p t ih =>
    by_cases hp : p.1 = OTHER
    · simpa [List.filter_cons, hp] using ih
    · simpa [List.filter_cons, hp] using ih

/-! ## The `apply_rules` pipeline -/

theorem material_rules_wf : ∀ r ∈ material_rules, wf_weighted r.2 = true := by decide

theorem usage_rules_wf : ∀ r ∈ usage_rules, wf_weighted r.2 = true := by decide

theorem state_rules_wf : ∀ r ∈ state_rules, wf_state r.2 = true := by decide

theorem apply_rules_ok_parts (text : String) (l : ScoreMap)
    (h : apply_rules text = .ok l) :
    ∃ m3, fold_state (str_lower text) state_rules
        (fold_weighted (str_lower text) usage_rules
          (fold_weighted (str_lower text) material_rules [])) = .ok m3
      ∧ l = normalize m3 := by
  simp only [apply_rules] at h
  split at h <;> rename_i m3 heq
  · cases h
  · cases h
    exact ⟨m3, heq, rfl⟩

theorem apply_rules_ok_allpos (text : String) (l : ScoreMap)
    (h : apply_rules text = .ok l) : AllPos l := by
  obtain ⟨m3, hfs, rfl⟩ := apply_rules_ok_parts text l h
  have h1 : AllPos (fold_weighted (str_lower text) material_rules []) :=
    fold_weighted_allpos _ _ [] (by intro p hp; simp at hp) material_rules_wf
  have h2 := fold_weighted_allpos (str_lower text) usage_rules _ h1 usage_rules_wf
  have h3 := fold_state_ok_allpos (str_lower text) state_rules _ m3 hfs h2 state_rules_wf
  exact normalize_allpos m3 h3

theorem apply_rules_ok_nodup (text : String) (l : ScoreMap)
    (h : apply_rules text = .ok l) : KeysNodup l := by
  obtain ⟨m3, hfs, rfl⟩ := apply_rules_ok_parts text l h
  have h1 : KeysNodup (fold_weighted (str_lower text) material_rules []) :=
    fold_weighted_nodup _ _ [] (by simp [KeysNodup])
  have h2 := fold_weighted_nodup (str_lower text) usage_rules _ h1
  have h3 := fold_state_ok_nodup (str_lower text) state_rules _ m3 hfs h2
  unfold KeysNodup
  rw [normalize_keys]
  exact h3

theorem apply_rules_ok_nil_iff (text : String) (l : ScoreMap)
    (h : apply_rules text = .ok l) :
    (l = [] ↔ scoring_trigger_matched text = false) := by
  obtain ⟨m3, hfs, rfl⟩ := apply_rules_ok_parts text l h
  rw [normalize_eq_nil_iff]
  unfold scoring_trigger_matched
  constructor
  · intro hnil
    by_contra hst
    rw [Bool.not_eq_false, Bool.or_eq_true, Bool.or_eq_true] at hst
    rcases hst with (hmat | husa) | hcat
    · have h1 := fold_weighted_ne_nil_of_match (str_lower text) material_rules []
        hmat material_rules_wf
      have h2 := fold_weighted_ne_nil_of_ne_nil (str_lower text) usage_rules _ h1
      exact fold_state_ok_ne_nil (str_lower text) state_rules _ m3 hfs h2 hnil
    · have h2 := fold_weighted_ne_nil_of_match (str_lower text) usage_rules
        (fold_weighted (str_lower text) material_rules []) husa usage_rules_wf
      exact fold_state_ok_ne_nil (str_lower text) state_rules _ m3 hfs h2 hnil
    · exact fold_state_ne_nil_of_cat_match (str_lower text) state_rules _ m3 hfs hcat hnil
  · intro hfalse
    rw [Bool.or_eq_false_iff, Bool.or_eq_false_iff] at hfalse
    obtain ⟨⟨hmat, husa⟩, hcat⟩ := hfalse
    rw [fold_weighted_id_of_no_match _ _ _ hmat, fold_weighted_id_of_no_match _ _ _ husa]
      at hfs
    rw [fold_state_nil_of_no_cat _ _ hcat] at hfs
    cases hfs
    rfl

/-- C1: the spec asserts `apply_rules` is total and in particular that the
dampen-and-redistribute adjustment returns normally for every input.  On the
input "玻璃破碎" the 玻璃 material rule scores RECYCLABLE and the 破碎 state
trigger then runs the dampening loop, whose `scores[OTHER] += 0.2` inserts a
key into the dict being iterated: CPython raises RuntimeError, modelled here
as the `.error` outcome.  The claim is right about the intent and the code
is wrong (a classic mutate-while-iterating slip). -/
theorem c1_apply_rules_raises :
    apply_rules "玻璃破碎" = .error "RuntimeError: dictionary changed size during iteration" := by
  decide

/-- C5 counterexample: the state trigger 干燥 matches the input "干燥", yet
`apply_rules` returns the empty map, whose value sum 0 is not within 1e-6 of
1.0 — refuting "values sum to 1.0 whenever at least one rule trigger
matched". -/
theorem c5_counterexample :
    any_trigger_matched "干燥" = true ∧ apply_rules "干燥" = .ok []
      ∧ 1 - sum_scores [] > 1/1000000 := by
  decide

/-- C5 (amended): whenever `apply_rules` returns normally, every returned
value is nonnegative, a nonempty map sums to exactly 1, and the map is empty
exactly when no weight-carrying trigger matched (effect-only triggers such
as 干燥 can match while the map stays empty; for some inputs `apply_rules`
raises instead of returning). -/
theorem c5_apply_rules_invariants (text : String) (l : ScoreMap)
    (h : apply_rules text = .ok l) :
    (∀ p ∈ l, 0 ≤ p.2) ∧ (l ≠ [] → sum_scores l = 1)
      ∧ (l = [] ↔ scoring_trigger_matched text = false) := by
  refine ⟨?_, ?_, apply_rules_ok_nil_iff text l h⟩
  · intro p hp
    exact (apply_rules_ok_allpos text l h p hp).le
  · intro hne
    obtain ⟨m3, hfs, rfl⟩ := apply_rules_ok_parts text l h
    have h1 : AllPos (fold_weighted (str_lower text) material_rules []) :=
      fold_weighted_allpos _ _ [] (by intro p hp; simp at hp) material_rules_wf
    have h2 := fold_weighted_allpos (str_lower text) usage_rules _ h1 usage_rules_wf
    have h3 := fold_state_ok_allpos (str_lower text) state_rules _ m3 hfs h2 state_rules_wf
    exact normalize_sum m3 h3 (fun hnil => hne (by rw [hnil, normalize_nil]))

/-- C5 witness: the invariants evaluated on the input "金属", on which
`apply_rules` returns the singleton RECYCLABLE map. -/
theorem c5_witness :
    apply_rules "金属" = .ok [(RECYCLABLE, 1)]
      ∧ ((∀ p ∈ ([(RECYCLABLE, (1:ℚ))] : ScoreMap), 0 ≤ p.2)
          ∧ (([(RECYCLABLE, (1:ℚ))] : ScoreMap) ≠ [] →
              sum_scores [(RECYCLABLE, (1:ℚ))] = 1)
          ∧ (([(RECYCLABLE, (1:ℚ))] : ScoreMap) = []
              ↔ scoring_trigger_matched "金属" = false)) :=
  ⟨by decide, c5_apply_rules_invariants "金属" [(RECYCLABLE, 1)] (by decide)⟩

/-- C3 counterexample: `classify_by_text` applied to the empty string does
not return the empty list (it raises; every item scores 0.6, and the first
dict store with the unhashable `GarbageItem` key aborts the call). -/
theorem c3_counterexample :
    classify_by_text "" ≠ .ok [] := by decide

/-- C3 (amended): on the empty string every catalog item accrues score 0.6
(the empty string is a substring of every name and description), so the
first dict insertion raises TypeError; a whitespace-only query matches
nothing and returns the empty list. -/
theorem c3_empty_query_behavior :
    classify_by_text "" = .error "TypeError: unhashable type: GarbageItem"
      ∧ default_items.map (item_score (str_lower "")) = List.replicate 16 ((3:ℚ)/5)
      ∧ classify_by_text " " = .ok [] := by
  decide

/-- C10: `search_by_name` on the empty string returns the first catalog item
(the 塑料瓶 item), because the empty string is a substring of every name;
and a not-found outcome forces the query to be non-empty and to stand in no
substring relation with any catalog name. -/
theorem c10_search_by_name_empty :
    search_by_name "" = default_items.head?
      ∧ (search_by_name "").map (fun it => it.name) = some "塑料瓶"
      ∧ ∀ q : String, search_by_name q = none →
          q ≠ "" ∧ ∀ it ∈ default_items,
            strIn (str_lower q) (str_lower it.name) = false
              ∧ strIn (str_lower it.name) (str_lower q) = false := by
  refine ⟨by decide, by decide, ?_⟩
  intro q h
  constructor
  · rintro rfl
    exact absurd h (by decide)
  · intro it hit
    unfold search_by_name at h
    have hp := List.find?_eq_none.mp h it hit
    simpa using hp

/-- C10 witness: the theorem applied to the concrete not-found query "abc". -/
theorem c10_witness :
    search_by_name "" = default_items.head?
      ∧ ("abc" ≠ "" ∧ ∀ it ∈ default_items,
          strIn (str_lower "abc") (str_lower it.name) = false
            ∧ strIn (str_lower it.name) (str_lower "abc") = false) :=
  ⟨c10_search_by_name_empty.1, c10_search_by_name_empty.2.2 "abc" (by decide)⟩

/-- C4 counterexample: on the score map left by the 塑料 and 食物 rules for
the input "塑料食物破碎", the 破碎 dampening trigger adds +0.2 to OTHER once
per affected non-Other category (twice in total: 0.15 → 0.55), not the +0.2
per trigger the claim states (which would give 0.35); the full pipeline
accordingly returns OTHER = 55/107 rather than 35/87. -/
theorem c4_counterexample :
    dampen_step [(RECYCLABLE, 3/20), (OTHER, 3/20), (KITCHEN, 1/2)]
        = .ok [(RECYCLABLE, 3/25), (OTHER, 11/20), (KITCHEN, 2/5)]
      ∧ spec_dampen_step [(RECYCLABLE, 3/20), (OTHER, 3/20), (KITCHEN, 1/2)]
        = [(RECYCLABLE, 3/25), (OTHER, 7/20), (KITCHEN, 2/5)]
      ∧ ((11:ℚ)/20 ≠ 7/20)
      ∧ apply_rules "塑料食物破碎"
        = .ok [(RECYCLABLE, 12/107), (OTHER, 55/107), (KITCHEN, 40/107)]
      ∧ ((55:ℚ)/107 ≠ 35/87) := by
  decide

/-! ## Characterization of the dampening loop -/

theorem dampen_loop_char (ks : List GarbageCategory) (m : ScoreMap)
    (hks : ks.Nodup) (hoth : ∃ p ∈ m, p.1 = OTHER) :
    ∃ m', dampen_loop ks m = .ok m'
      ∧ ∀ c, lookupScore m' c = (lookupScore m c).map (fun v =>
          if c = OTHER then v + (1/5) * ((ks.filter (fun k => k ≠ OTHER)).length : ℚ)
          else if c ∈ ks then v * (4/5) else v) := by
  induction ks generalizing m with
  | nil =>
    refine ⟨m, rfl, ?_⟩
    intro c
    cases hc : lookupScore m c <;> simp
  | cons k ks ih =>
    have hknotin : k ∉ ks := (List.nodup_cons.mp hks).1
    have hksrest : ks.Nodup := (List.nodup_cons.mp hks).2
    by_cases hk : k = OTHER
    · subst hk
      rw [show dampen_loop (OTHER :: ks) m = dampen_loop ks m from by
        simp [dampen_loop]]
      obtain ⟨m', hrun, hchar⟩ := ih m hksrest hoth
      refine ⟨m', hrun, ?_⟩
      intro c
      rw [hchar c]
      by_cases hc : c = OTHER
      · subst hc
        have hfil : (OTHER :: ks).filter (fun k => k ≠ OTHER) =
            ks.filter (fun k => k ≠ OTHER) := by
          simp [List.filter_cons]
        rw [hfil]
        cases lookupScore m OTHER <;> simp
      · have hmem : (c ∈ OTHER :: ks) ↔ (c ∈ ks) := by simp [hc]
        cases lookupScore m c <;> simp [hc, hmem]
    · rw [show dampen_loop (k :: ks) m =
          (let m1 := mul_at m k (4/5);
            if ∃ p ∈ m1, p.1 = OTHER then dampen_loop ks (addTo m1 OTHER (1/5))
            else .error "RuntimeError: dictionary changed size during iteration") from by
        simp [dampen_loop, hk]]
      have hoth1 : ∃ p ∈ mul_at m k (4/5), p.1 = OTHER := by
        rw [← mem_keys_iff_exists] at hoth ⊢
        rw [mul_at_keys]
        exact hoth
      rw [if_pos hoth1]
      have hoth2 : ∃ p ∈ addTo (mul_at m k (4/5)) OTHER (1/5), p.1 = OTHER := by
        rw [← mem_keys_iff_exists]
        rw [mem_keys_addTo]
        exact Or.inr rfl
      obtain ⟨m', hrun, hchar⟩ := ih (addTo (mul_at m k (4/5)) OTHER (1/5)) hksrest hoth2
      refine ⟨m', hrun, ?_⟩
      intro c
      rw [hchar c]
      by_cases hc : c = OTHER
      · subst hc
        obtain ⟨w, hw⟩ := lookup_isSome_of_mem m OTHER hoth
        have h1 : lookupScore (mul_at m k (4/5)) OTHER = some w := by
          rw [lookup_mul_at_ne m k OTHER (4/5) (fun he => hk he.symm)]
          exact hw
        have h2 : lookupScore (addTo (mul_at m k (4/5)) OTHER (1/5)) OTHER
            = some (w + 1/5) := by
          rw [lookup_addTo_self, getScore, h1]
          rfl
        rw [h2, hw]
        have hfil : ((k :: ks).filter (fun q => q ≠ OTHER)).length
            = (ks.filter (fun q => q ≠ OTHER)).length + 1 := by
          simp [List.filter_cons, hk]
        rw [hfil]
        have hred : ∀ (x y : ℚ), (if (OTHER : GarbageCategory) = OTHER then x else y) = x :=
          fun x y => if_pos rfl
        simp only [hred, Option.map, Option.some.injEq]
        push_cast
        ring
      · by_cases hck : c = k
        · subst hck
          have h1 : lookupScore (addTo (mul_at m c (4/5)) OTHER (1/5)) c
              = lookupScore (mul_at m c (4/5)) c :=
            lookup_addTo_ne _ OTHER c (1/5) hc
          rw [h1, lookup_mul_at_self]
          cases hl : lookupScore m c <;>
            simp [hc, hknotin, List.mem_cons]
        · have h1 : lookupScore (addTo (mul_at m k (4/5)) OTHER (1/5)) c
              = lookupScore m c := by
            rw [lookup_addTo_ne _ OTHER c (1/5) hc, lookup_mul_at_ne m k c (4/5) hck]
          rw [h1]
          have hmem : (c ∈ k :: ks) ↔ (c ∈ ks) := by simp [hck]
          cases hl : lookupScore m c <;> simp [hc, hmem]

/-- C4 (amended): a matching dampening trigger multiplies every non-Other
score by 0.8 and adds +0.2 to Other once per non-Other key of the score map
(+0.2 × k in total for k non-Other keys) — and this only returns normally
when Other already holds a score; when Other is absent and some non-Other
key is present, the insertion of Other into the dict under iteration raises
RuntimeError. -/
theorem c4_dampen_characterization (m : ScoreMap) (hm : KeysNodup m) :
    ((∃ p ∈ m, p.1 = OTHER) →
      ∃ m', dampen_step m = .ok m'
        ∧ m'.map (·.1) = m.map (·.1)
        ∧ (∀ c, c ≠ OTHER → lookupScore m' c = (lookupScore m c).map (· * (4/5)))
        ∧ lookupScore m' OTHER = (lookupScore m OTHER).map
            (· + (1/5) * ((m.filter (fun p => p.1 ≠ OTHER)).length : ℚ)))
    ∧ ((¬ ∃ p ∈ m, p.1 = OTHER) → (∃ p ∈ m, p.1 ≠ OTHER) →
        dampen_step m = .error "RuntimeError: dictionary changed size during iteration") := by
  constructor
  · intro hoth
    have hm2 : (m.map (·.1)).Nodup := hm
    obtain ⟨m', hrun, hchar⟩ := dampen_loop_char (m.map (·.1)) m hm2 hoth
    refine ⟨m', hrun, dampen_loop_keys _ m m' hrun, ?_, ?_⟩
    · intro c hc
      rw [hchar c]
      by_cases hmem : c ∈ m.map (·.1)
      · cases hl : lookupScore m c <;> simp [hc, hmem]
      · rw [lookup_eq_none_of_not_mem m c (fun hex => hmem ((mem_keys_iff_exists m c).mpr hex))]
        simp
    · rw [hchar OTHER]
      obtain ⟨w, hw⟩ := lookup_isSome_of_mem m OTHER hoth
      rw [hw, filter_map_fst_length]
      simp
  · intro hnoth hsome
    obtain ⟨p, hp, hpo⟩ := hsome
    have hne : m ≠ [] := fun hnil => by simp [hnil] at hp
    obtain ⟨q, rest, rfl⟩ := List.exists_cons_of_ne_nil hne
    have hq : q.1 ≠ OTHER := fun he => hnoth ⟨q, List.mem_cons_self _ _, he⟩
    unfold dampen_step
    rw [show ((q :: rest).map (·.1)) = q.1 :: rest.map (·.1) from rfl]
    rw [show dampen_loop (q.1 :: rest.map (·.1)) (q :: rest) =
        (let m1 := mul_at (q :: rest) q.1 (4/5);
          if ∃ p ∈ m1, p.1 = OTHER then
            dampen_loop (rest.map (·.1)) (addTo m1 OTHER (1/5))
          else .error "RuntimeError: dictionary changed size during iteration") from by
      simp [dampen_loop, hq]]
    have hcond : ¬ ∃ p ∈ mul_at (q :: rest) q.1 (4/5), p.1 = OTHER := by
      intro hex
      rw [← mem_keys_iff_exists, mul_at_keys, mem_keys_iff_exists] at hex
      exact hnoth hex
    rw [if_neg hcond]

/-- C4 witness: the amended characterization evaluated on the concrete map
`[(RECYCLABLE, 1/2), (OTHER, 1/4)]` (one non-Other key: RECYCLABLE is
scaled to 2/5 and OTHER receives a single +0.2, giving 9/20). -/
theorem c4_witness :
    KeysNodup [(RECYCLABLE, (1:ℚ)/2), (OTHER, 1/4)]
      ∧ (∃ m', dampen_step [(RECYCLABLE, (1:ℚ)/2), (OTHER, 1/4)] = .ok m'
          ∧ m'.map (·.1) = ([(RECYCLABLE, (1:ℚ)/2), (OTHER, 1/4)] : ScoreMap).map (·.1)
          ∧ (∀ c, c ≠ OTHER →
              lookupScore m' c =
                (lookupScore [(RECYCLABLE, (1:ℚ)/2), (OTHER, 1/4)] c).map (· * (4/5)))
          ∧ lookupScore m' OTHER =
              (lookupScore [(RECYCLABLE, (1:ℚ)/2), (OTHER, 1/4)] OTHER).map
                (· + (1/5) * ((([(RECYCLABLE, (1:ℚ)/2), (OTHER, 1/4)] : ScoreMap).filter
                    (fun p => p.1 ≠ OTHER)).length : ℚ))) :=
  ⟨by decide,
    (c4_dampen_characterization [(RECYCLABLE, (1:ℚ)/2), (OTHER, 1/4)] (by decide)).1
      (by decide)⟩

/-! ## Image-path lemmas: the 0.1 floor and the prediction invariants -/

theorem allpos_nil : AllPos ([] : ScoreMap) := by
  intro p hp
  simp at hp

theorem keysnodup_nil : KeysNodup ([] : ScoreMap) := by
  simp [KeysNodup]

theorem all_categories_nodup : all_categories.Nodup := by decide

theorem mem_all_categories (c : GarbageCategory) : c ∈ all_categories := by
  cases c <;> decide

theorem floor_fold_mem_of_mem (cats : List GarbageCategory) (m : ScoreMap)
    (p : GarbageCategory × ℚ) (hp : p ∈ m) :
    p ∈ cats.foldl
      (fun acc c => if ∃ q ∈ acc, q.1 = c then acc else acc ++ [(c, (1:ℚ)/10)]) m := by
  induction cats generalizing m with
  | nil => exact hp
  | cons c rest ih =>
    simp only [List.foldl_cons]
    apply ih
    split
    · exact hp
    · exact List.mem_append_left _ hp

theorem floor_fold_keys_mono (cats : List GarbageCategory) (m : ScoreMap)
    (c : GarbageCategory) (hc : c ∈ m.map (·.1)) :
    c ∈ (cats.foldl
      (fun acc c => if ∃ q ∈ acc, q.1 = c then acc else acc ++ [(c, (1:ℚ)/10)]) m).map (·.1) := by
  rw [mem_keys_iff_exists] at hc ⊢
  obtain ⟨p, hp, hpc⟩ := hc
  exact ⟨p, floor_fold_mem_of_mem cats m p hp, hpc⟩

theorem floor_fold_keys_complete (cats : List GarbageCategory) (m : ScoreMap)
    (c : GarbageCategory) (hc : c ∈ cats) :
    c ∈ (cats.foldl
      (fun acc c => if ∃ q ∈ acc, q.1 = c then acc else acc ++ [(c, (1:ℚ)/10)]) m).map (·.1) := by
  induction cats generalizing m with
  | nil => simp at hc
  | cons c2 rest ih =>
    simp only [List.foldl_cons]
    rcases List.mem_cons.mp hc with rfl | hcrest
    · apply floor_fold_keys_mono
      split <;> rename_i hex
      · exact (mem_keys_iff_exists m c).mpr hex
      · simp
    · exact ih _ hcrest

theorem floor_fold_nodup (cats : List GarbageCategory) (m : ScoreMap)
    (hm : KeysNodup m) :
    KeysNodup (cats.foldl
      (fun acc c => if ∃ q ∈ acc, q.1 = c then acc else acc ++ [(c, (1:ℚ)/10)]) m) := by
  induction cats generalizing m with
  | nil => exact hm
  | cons c rest ih =>
    simp only [List.foldl_cons]
    apply ih
    split <;> rename_i hex
    · exact hm
    · unfold KeysNodup at *
      rw [List.map_append]
      rw [List.nodup_append]
      refine ⟨hm, by simp, ?_⟩
      intro a ha hac
      simp only [List.map_cons, List.map_nil, List.mem_singleton] at hac
      exact hex ((mem_keys_iff_exists m c).mp (hac ▸ ha))

theorem floor_fold_allpos (cats : List GarbageCategory) (m : ScoreMap)
    (hm : AllPos m) :
    AllPos (cats.foldl
      (fun acc c => if ∃ q ∈ acc, q.1 = c then acc else acc ++ [(c, (1:ℚ)/10)]) m) := by
  induction cats generalizing m with
  | nil => exact hm
  | cons c rest ih =>
    simp only [List.foldl_cons]
    apply ih
    split
    · exact hm
    · intro p hp
      rcases List.mem_append.mp hp with hpm | hps
      · exact hm p hpm
      · simp only [List.mem_singleton] at hps
        rw [hps]
        norm_num

theorem floor_fold_fresh (cats : List GarbageCategory) (m : ScoreMap)
    (c : GarbageCategory) (hcats : cats.Nodup) (hc : c ∈ cats)
    (hnot : c ∉ m.map (·.1)) :
    (c, (1:ℚ)/10) ∈ cats.foldl
      (fun acc c => if ∃ q ∈ acc, q.1 = c then acc else acc ++ [(c, (1:ℚ)/10)]) m := by
  induction cats generalizing m with
  | nil => simp at hc
  | cons c2 rest ih =>
    simp only [List.foldl_cons]
    rcases List.mem_cons.mp hc with rfl | hcrest
    · rw [if_neg (fun hex => hnot ((mem_keys_iff_exists m c).mpr hex))]
      exact floor_fold_mem_of_mem rest _ _ (List.mem_append_right _ (by simp))
    · have hc2 : c2 ≠ c := by
        rintro rfl
        exact (List.nodup_cons.mp hcats).1 hcrest
      have hnot2 : c ∉ ((if ∃ q ∈ m, q.1 = c2 then m else m ++ [(c2, (1:ℚ)/10)]).map (·.1)) := by
        split
        · exact hnot
        · rw [List.map_append]
          intro hmem
          rcases List.mem_append.mp hmem with h1 | h2
          · exact hnot h1
          · simp only [List.map_cons, List.map_nil, List.mem_singleton] at h2
            exact hc2 h2.symm
      exact ih _ (List.nodup_cons.mp hcats).2 hcrest hnot2

theorem normalize_length (m : ScoreMap) : (normalize m).length = m.length := by
  unfold normalize
  split
  · simp
  · rfl

theorem image_base_scores_allpos (a : ImageAnalysis) :
    AllPos (image_base_scores a) := by
  unfold image_base_scores
  split_ifs <;>
    repeat' first | exact allpos_nil | apply addTo_allpos | norm_num

theorem image_base_scores_nodup (a : ImageAnalysis) :
    KeysNodup (image_base_scores a) := by
  unfold image_base_scores
  split_ifs <;>
    repeat' first | exact keysnodup_nil | apply addTo_keysNodup

theorem image_rule_scores_allpos (a : ImageAnalysis) (hint : Option String) :
    AllPos (image_rule_scores a hint) := by
  have hb := image_base_scores_allpos a
  unfold image_rule_scores
  cases hint with
  | none => exact hb
  | some h =>
    dsimp only
    split_ifs <;> first | exact hb | (apply addTo_allpos _ _ _ hb; norm_num)

theorem image_rule_scores_nodup (a : ImageAnalysis) (hint : Option String) :
    KeysNodup (image_rule_scores a hint) := by
  have hb := image_base_scores_nodup a
  unfold image_rule_scores
  cases hint with
  | none => exact hb
  | some h =>
    dsimp only
    split_ifs <;> first | exact hb | exact addTo_keysNodup _ _ _ hb

/-- C2: for every successfully analyzed image (arbitrary brightness,
contrast, dominant color) and every optional text hint,
`predict_from_image` returns exactly 4 pairs, one per category, with
positive scores summing to exactly 1 (hence within 1e-6 of 1.0), sorted
descending; every category without a rule contribution enters the result as
0.1 divided by the floored total. -/
theorem c2_predict_props (a : ImageAnalysis) (hint : Option String) :
    (predict_from_image (some a) hint).length = 4
    ∧ (∀ c : GarbageCategory, c ∈ (predict_from_image (some a) hint).map (·.1))
    ∧ ((predict_from_image (some a) hint).map (·.1)).Nodup
    ∧ sum_scores (predict_from_image (some a) hint) = 1
    ∧ (predict_from_image (some a) hint).Pairwise (fun x y => y.2 ≤ x.2)
    ∧ (∀ c : GarbageCategory, c ∉ (image_rule_scores a hint).map (·.1) →
        (c, (1/10) / sum_scores (floor_categories (image_rule_scores a hint)))
          ∈ predict_from_image (some a) hint) := by
  have hrawpos := image_rule_scores_allpos a hint
  have hrawnodup := image_rule_scores_nodup a hint
  have hprepos : AllPos (floor_categories (image_rule_scores a hint)) :=
    floor_fold_allpos all_categories _ hrawpos
  have hprenodup : KeysNodup (floor_categories (image_rule_scores a hint)) :=
    floor_fold_nodup all_categories _ hrawnodup
  have hcomplete : ∀ c : GarbageCategory,
      c ∈ (floor_categories (image_rule_scores a hint)).map (·.1) :=
    fun c => floor_fold_keys_complete all_categories _ c (mem_all_categories c)
  have hperm : List.Perm ((floor_categories (image_rule_scores a hint)).map (·.1))
      all_categories :=
    (List.perm_ext_iff_of_nodup hprenodup all_categories_nodup).mpr
      (fun c => ⟨fun _ => mem_all_categories c, fun _ => hcomplete c⟩)
  have hprelen : (floor_categories (image_rule_scores a hint)).length = 4 := by
    have h1 : ((floor_categories (image_rule_scores a hint)).map (·.1)).length
        = all_categories.length := hperm.length_eq
    simpa [all_categories] using h1
  have hprene : floor_categories (image_rule_scores a hint) ≠ [] := by
    intro hnil
    rw [hnil] at hprelen
    simp at hprelen
  have hr : predict_from_image (some a) hint
      = sort_desc (normalize (floor_categories (image_rule_scores a hint))) := rfl
  have hsperm : List.Perm (predict_from_image (some a) hint)
      (normalize (floor_categories (image_rule_scores a hint))) := by
    rw [hr]
    exact sort_desc_perm _
  have hkeysr : List.Perm ((predict_from_image (some a) hint).map (·.1))
      ((floor_categories (image_rule_scores a hint)).map (·.1)) := by
    rw [← normalize_keys (floor_categories (image_rule_scores a hint))]
    exact hsperm.map (·.1)
  refine ⟨?_, ?_, ?_, ?_, ?_, ?_⟩
  · rw [hsperm.length_eq, normalize_length]
    exact hprelen
  · intro c
    exact (hkeysr.mem_iff).mpr (hcomplete c)
  · have hpn : ((floor_categories (image_rule_scores a hint)).map (·.1)).Nodup := hprenodup
    exact (hkeysr.nodup_iff).mpr hpn
  · unfold sum_scores
    rw [(hsperm.map (·.2)).sum_eq]
    exact normalize_sum _ hprepos hprene
  · rw [hr]
    exact sort_desc_sorted _
  · intro c hc
    have hmem : (c, (1:ℚ)/10) ∈ floor_categories (image_rule_scores a hint) :=
      floor_fold_fresh all_categories _ c all_categories_nodup (mem_all_categories c) hc
    have hn := normalize_mem (floor_categories (image_rule_scores a hint)) c (1/10)
      hmem (sum_scores_pos _ hprepos hprene)
    exact hsperm.mem_iff.mpr hn

/-- C2 witness: the invariants evaluated on a concrete mid-gray analysis
(brightness 1/2, contrast 1/2) with no hint: no rule fires, all four
categories are floored to 0.1 and normalized to 1/4 each. -/
theorem c2_witness :
    (predict_from_image (some ⟨(100, 100, 100), 1/2, 1/2⟩) none).length = 4
      ∧ sum_scores (predict_from_image (some ⟨(100, 100, 100), 1/2, 1/2⟩) none) = 1
      ∧ (OTHER, (1/10) / sum_scores (floor_categories
            (image_rule_scores ⟨(100, 100, 100), 1/2, 1/2⟩ none)))
          ∈ predict_from_image (some ⟨(100, 100, 100), 1/2, 1/2⟩) none :=
  ⟨(c2_predict_props ⟨(100, 100, 100), 1/2, 1/2⟩ none).1,
    (c2_predict_props ⟨(100, 100, 100), 1/2, 1/2⟩ none).2.2.2.1,
    (c2_predict_props ⟨(100, 100, 100), 1/2, 1/2⟩ none).2.2.2.2.2 OTHER (by decide)⟩

/-! ## Exact-match and score-bound lemmas for `classify_by_text` -/

theorem names_nodup : (default_items.map (fun it => str_lower it.name)).Nodup := by
  decide

theorem find_exact_eq (l : List GarbageItem) (it : GarbageItem) (k : String)
    (hnodup : (l.map (fun i => str_lower i.name)).Nodup)
    (hmem : it ∈ l) (hk : str_lower it.name = k) :
    l.find? (fun i => str_lower i.name == k) = some it := by
  induction l with
  | nil => simp at hmem
  | cons i rest ih =>
    rcases List.mem_cons.mp hmem with rfl | hrest
    · rw [List.find?_cons_of_pos _ (by simp [hk])]
    · have hi : ¬ str_lower i.name = k := by
        rw [← hk]
        intro he
        have hmm : str_lower it.name ∈ rest.map (fun j => str_lower j.name) :=
          List.mem_map_of_mem _ hrest
        exact (List.nodup_cons.mp hnodup).1 (by simpa [he] using hmm)
      rw [List.find?_cons_of_neg _ (by simp [hi])]
      exact ih (List.nodup_cons.mp hnodup).2 hrest

/-- C7: for every input whose lowercased form equals the lowercased name of
a catalog item, `classify_by_text` short-circuits at the exact-name check
and returns exactly that single item with score 1.0 (catalog names are
pairwise distinct, so the matching item is unique). -/
theorem c7_exact_match (text : String) (it : GarbageItem)
    (hmem : it ∈ default_items) (hname : str_lower it.name = str_lower text) :
    classify_by_text text = .ok [(it, 1)] := by
  simp only [classify_by_text]
  rw [find_exact_eq default_items it (str_lower text) names_nodup hmem hname]

/-- C7 witness: the exact catalog name "塑料瓶" returns exactly its item at
score 1.0. -/
theorem c7_witness :
    classify_by_text "塑料瓶" = .ok [(plastic_bottle_item, 1)] :=
  c7_exact_match "塑料瓶" plastic_bottle_item (by decide) (by decide)

/-- C9: every accumulated substring score is at most 0.9
(0.4 name + 0.3 × keyword ratio + 0.2 description); a returned score of
1.0 forces an exact (lowercased) name match, and for a non-exact query any
returned score is at most 0.9. -/
theorem c9_score_bounds :
    (∀ (t : String) (it : GarbageItem), item_score t it ≤ 9/10)
    ∧ (∀ (text : String) (l : List (GarbageItem × ℚ)),
        classify_by_text text = .ok l → ∀ p ∈ l, p.2 = 1 →
          ∃ it ∈ default_items, str_lower it.name = str_lower text)
    ∧ (∀ (text : String) (l : List (GarbageItem × ℚ)),
        classify_by_text text = .ok l →
          (¬ ∃ it ∈ default_items, str_lower it.name = str_lower text) →
          ∀ p ∈ l, p.2 ≤ 9/10) := by
  refine ⟨?_, ?_, ?_⟩
  · intro t it
    have hk := List.length_filter_le (fun kw => strIn kw t) it.keywords
    simp only [item_score]
    by_cases h2 : 0 < (it.keywords.filter (fun kw => strIn kw t)).length
    · have hlenpos : 0 < it.keywords.length := lt_of_lt_of_le h2 hk
      have hfrac : ((it.keywords.filter (fun kw => strIn kw t)).length : ℚ)
          / (it.keywords.length : ℚ) ≤ 1 := by
        rw [div_le_one (by exact_mod_cast hlenpos)]
        exact_mod_cast hk
      have hfracpos : 0 ≤ ((it.keywords.filter (fun kw => strIn kw t)).length : ℚ)
          / (it.keywords.length : ℚ) :=
        div_nonneg (by positivity) (by positivity)
      have hs2 : (3:ℚ)/10 * (((it.keywords.filter (fun kw => strIn kw t)).length : ℚ)
          / (it.keywords.length : ℚ)) ≤ 3/10 := by nlinarith
      rw [if_pos h2]
      split_ifs <;> linarith
    · rw [if_neg h2]
      split_ifs <;> norm_num
  · intro text l h p hp hp1
    simp only [classify_by_text] at h
    cases hfind : default_items.find? (fun i => str_lower i.name == str_lower text) with
    | some it =>
      rw [hfind] at h
      cases h
      rw [List.mem_singleton] at hp
      have hpred : (str_lower it.name == str_lower text) = true := by
        simpa using List.find?_some hfind
      exact ⟨it, List.mem_of_find?_eq_some hfind, eq_of_beq hpred⟩
    | none =>
      rw [hfind] at h
      by_cases hany :
          (default_items.any fun it => decide (0 < item_score (str_lower text) it)) = true
      · rw [if_pos hany] at h
        cases h
      · rw [if_neg hany] at h
        cases h
        simp at hp
  · intro text l h hnex p hp
    simp only [classify_by_text] at h
    cases hfind : default_items.find? (fun i => str_lower i.name == str_lower text) with
    | some it =>
      have hpred : (str_lower it.name == str_lower text) = true := by
        simpa using List.find?_some hfind
      exact absurd ⟨it, List.mem_of_find?_eq_some hfind, eq_of_beq hpred⟩ hnex
    | none =>
      rw [hfind] at h
      by_cases hany :
          (default_items.any fun it => decide (0 < item_score (str_lower text) it)) = true
      · rw [if_pos hany] at h
        cases h
      · rw [if_neg hany] at h
        cases h
        simp at hp

/-- C9 witness: the bound evaluated on the non-exact query "塑料" against
the 塑料瓶 item (score 27/40 ≤ 9/10); the 1.0-iff-exact direction evaluated
on the exact name "电池" and on the whitespace query " ". -/
theorem c9_witness :
    item_score "塑料" plastic_bottle_item ≤ 9/10
    ∧ (∃ it ∈ default_items, str_lower it.name = str_lower "电池")
    ∧ (∀ p ∈ ([] : List (GarbageItem × ℚ)), p.2 ≤ 9/10) :=
  ⟨c9_score_bounds.1 "塑料" plastic_bottle_item,
    c9_score_bounds.2.1 "电池" [(battery_item, 1)] (by decide) (battery_item, 1)
      (by decide) rfl,
    c9_score_bounds.2.2 " " [] (by decide) (by decide)⟩

/-! ## Combination lemmas for `combine_with_keyword_search` -/

theorem getScore_nil (c : GarbageCategory) : getScore [] c = 0 := rfl

theorem getScore_addTo (m : ScoreMap) (c : GarbageCategory) (v : ℚ)
    (c' : GarbageCategory) :
    getScore (addTo m c v) c' = getScore m c' + (if c' = c then v else 0) := by
  by_cases h : c' = c
  · subst h
    unfold getScore
    rw [lookup_addTo_self]
    simp [getScore]
  · unfold getScore
    rw [lookup_addTo_ne m c c' v h, if_neg h]
    simp [getScore]

theorem filter_nil_of_not_mem_keys (m : ScoreMap) (c : GarbageCategory)
    (h : c ∉ m.map (·.1)) : m.filter (fun p => p.1 = c) = [] := by
  induction m with
  | nil => rfl
  | cons p t ih =>
    have hp : ¬ p.1 = c := fun he => h (by simp [he])
    have ht : c ∉ t.map (·.1) := fun hc => h (by simp [hc])
    simp [List.filter_cons, hp, ih ht]

theorem getScore_filter_sum (m : ScoreMap) (c : GarbageCategory)
    (hm : KeysNodup m) :
    getScore m c = ((m.filter (fun p => p.1 = c)).map (·.2)).sum := by
  induction m with
  | nil => rfl
  | cons p t ih =>
    have hm2 : KeysNodup t := (List.nodup_cons.mp hm).2
    by_cases hp : p.1 = c
    · have hnott : c ∉ t.map (·.1) := hp ▸ (List.nodup_cons.mp hm).1
      unfold getScore
      simp [lookupScore, List.filter_cons, hp, filter_nil_of_not_mem_keys t c hnott]
    · unfold getScore at *
      simp [lookupScore, List.filter_cons, hp, ih hm2]

theorem getScore_perm (l l' : ScoreMap) (h : List.Perm l l') (hl : KeysNodup l)
    (c : GarbageCategory) : getScore l c = getScore l' c := by
  have hmap := h.map (fun p : GarbageCategory × ℚ => p.1)
  have hl2 : (l.map (fun p => p.1)).Nodup := hl
  have hl' : KeysNodup l' := hmap.nodup_iff.mp hl2
  rw [getScore_filter_sum l c hl, getScore_filter_sum l' c hl']
  exact ((h.filter _).map (·.2)).sum_eq

theorem fold_rule_get (l : ScoreMap) (init : ScoreMap) (c : GarbageCategory) :
    getScore (l.foldl (fun acc p => addTo acc p.1 (p.2 * rules_weight)) init) c
      = getScore init c
        + ((l.filter (fun p => p.1 = c)).map (·.2)).sum * rules_weight := by
  induction l generalizing init with
  | nil => simp
  | cons p rest ih =>
    simp only [List.foldl_cons, List.filter_cons]
    rw [ih, getScore_addTo]
    by_cases h : p.1 = c
    · rw [if_pos h.symm, if_pos (decide_eq_true h)]
      simp only [List.map_cons, List.sum_cons]
      ring
    · rw [if_neg (fun he => h he.symm), if_neg (by simpa using h)]
      ring

theorem fold_kw_get (l : List (GarbageItem × ℚ)) (init : ScoreMap)
    (c : GarbageCategory) :
    getScore (l.foldl (fun acc p => addTo acc p.1.category (p.2 * keyword_weight)) init) c
      = getScore init c
        + ((l.filter (fun p => p.1.category = c)).map (·.2)).sum * keyword_weight := by
  induction l generalizing init with
  | nil => simp
  | cons p rest ih =>
    simp only [List.foldl_cons, List.filter_cons]
    rw [ih, getScore_addTo]
    by_cases h : p.1.category = c
    · rw [if_pos h.symm, if_pos (decide_eq_true h)]
      simp only [List.map_cons, List.sum_cons]
      ring
    · rw [if_neg (fun he => h he.symm), if_neg (by simpa using h)]
      ring

theorem fold_rule_mem (l : ScoreMap) (init : ScoreMap) (c : GarbageCategory) :
    c ∈ (l.foldl (fun acc p => addTo acc p.1 (p.2 * rules_weight)) init).map (·.1)
      ↔ c ∈ init.map (·.1) ∨ c ∈ l.map (·.1) := by
  induction l generalizing init with
  | nil => simp
  | cons p rest ih =>
    simp only [List.foldl_cons, List.map_cons, List.mem_cons]
    rw [ih, mem_keys_addTo]
    tauto

theorem fold_kw_mem (l : List (GarbageItem × ℚ)) (init : ScoreMap)
    (c : GarbageCategory) :
    c ∈ (l.foldl (fun acc p => addTo acc p.1.category (p.2 * keyword_weight)) init).map (·.1)
      ↔ c ∈ init.map (·.1) ∨ c ∈ l.map (fun p => p.1.category) := by
  induction l generalizing init with
  | nil => simp
  | cons p rest ih =>
    simp only [List.foldl_cons, List.map_cons, List.mem_cons]
    rw [ih, mem_keys_addTo]
    tauto

theorem fold_rule_nodup (l : ScoreMap) (init : ScoreMap) (h : KeysNodup init) :
    KeysNodup (l.foldl (fun acc p => addTo acc p.1 (p.2 * rules_weight)) init) := by
  induction l generalizing init with
  | nil => exact h
  | cons p rest ih =>
    simp only [List.foldl_cons]
    exact ih _ (addTo_keysNodup _ _ _ h)

theorem fold_kw_nodup (l : List (GarbageItem × ℚ)) (init : ScoreMap)
    (h : KeysNodup init) :
    KeysNodup (l.foldl (fun acc p => addTo acc p.1.category (p.2 * keyword_weight)) init) := by
  induction l generalizing init with
  | nil => exact h
  | cons p rest ih =>
    simp only [List.foldl_cons]
    exact ih _ (addTo_keysNodup _ _ _ h)

/-- C6 counterexample: the claim quantifies over every input text, but on
"剩饭" — one of the repository's own test queries — the keyword-classifier
sub-call raises TypeError (unhashable dataclass dict key), so
`combine_with_keyword_search` raises instead of returning a ranked list. -/
theorem c6_counterexample :
    combine_with_keyword_search "剩饭" = .error "TypeError: unhashable type: GarbageItem" := by
  decide

/-- C6 (amended): for every text on which the rule evaluation and the
keyword classification both return normally, the combined result is the
full list of contributing categories, sorted descending, with each
category's score equal to ruleScore.get(c,0) × 0.7 plus 0.3 × the sum of
the returned keyword confidences of that category — no re-normalization
after the weighted merge. -/
theorem c6_combine_formula (text : String) (rl : ScoreMap)
    (kl : List (GarbageItem × ℚ))
    (hrl : apply_rules text = .ok rl) (hkl : classify_by_text text = .ok kl) :
    ∃ out, combine_with_keyword_search text = .ok out
      ∧ out.Pairwise (fun x y => y.2 ≤ x.2)
      ∧ (∀ c, c ∈ out.map (·.1)
          ↔ (c ∈ rl.map (·.1) ∨ c ∈ kl.map (fun p => p.1.category)))
      ∧ (∀ c, getScore out c
          = getScore rl c * rules_weight
            + ((kl.filter (fun p => p.1.category = c)).map (·.2)).sum
              * keyword_weight) := by
  have hcomb : combine_with_keyword_search text
      = .ok (sort_desc (kl.foldl (fun acc p => addTo acc p.1.category (p.2 * keyword_weight))
          (rl.foldl (fun acc p => addTo acc p.1 (p.2 * rules_weight)) []))) := by
    unfold combine_with_keyword_search
    rw [hrl, hkl]
  have hcfnodup : KeysNodup (kl.foldl (fun acc p => addTo acc p.1.category (p.2 * keyword_weight))
      (rl.foldl (fun acc p => addTo acc p.1 (p.2 * rules_weight)) [])) :=
    fold_kw_nodup kl _ (fold_rule_nodup rl [] keysnodup_nil)
  have hperm := sort_desc_perm (kl.foldl (fun acc p => addTo acc p.1.category (p.2 * keyword_weight))
      (rl.foldl (fun acc p => addTo acc p.1 (p.2 * rules_weight)) []))
  refine ⟨_, hcomb, sort_desc_sorted _, ?_, ?_⟩
  · intro c
    rw [(hperm.map (·.1)).mem_iff, fold_kw_mem, fold_rule_mem]
    simp
  · intro c
    have hmapperm := hperm.map (fun p : GarbageCategory × ℚ => p.1)
    have hcf2 : ((kl.foldl (fun acc p => addTo acc p.1.category (p.2 * keyword_weight))
        (rl.foldl (fun acc p => addTo acc p.1 (p.2 * rules_weight)) [])).map
          (fun p => p.1)).Nodup := hcfnodup
    have hsorted : KeysNodup (sort_desc
        (kl.foldl (fun acc p => addTo acc p.1.category (p.2 * keyword_weight))
          (rl.foldl (fun acc p => addTo acc p.1 (p.2 * rules_weight)) []))) :=
      hmapperm.nodup_iff.mpr hcf2
    rw [getScore_perm _ _ hperm hsorted c,
      fold_kw_get, fold_rule_get, getScore_nil,
      getScore_filter_sum rl c (apply_rules_ok_nodup text rl hrl)]
    ring

/-- C6 witness: the merge formula evaluated on "塑料瓶" — the rule path
normalizes 塑料 into RECYCLABLE/OTHER at 1/2 each, the keyword path is the
exact match at 1.0, and the combined ranking is RECYCLABLE 0.65, OTHER
0.35. -/
theorem c6_witness :
    apply_rules "塑料瓶" = .ok [(RECYCLABLE, 1/2), (OTHER, 1/2)]
      ∧ classify_by_text "塑料瓶" = .ok [(plastic_bottle_item, 1)]
      ∧ (∃ out, combine_with_keyword_search "塑料瓶" = .ok out
          ∧ out.Pairwise (fun x y => y.2 ≤ x.2)
          ∧ (∀ c, c ∈ out.map (·.1)
              ↔ (c ∈ ([(RECYCLABLE, (1:ℚ)/2), (OTHER, 1/2)] : ScoreMap).map (·.1)
                  ∨ c ∈ [(plastic_bottle_item, (1:ℚ))].map (fun p => p.1.category)))
          ∧ (∀ c, getScore out c
              = getScore [(RECYCLABLE, (1:ℚ)/2), (OTHER, 1/2)] c * rules_weight
                + (([(plastic_bottle_item, (1:ℚ))].filter
                      (fun p => p.1.category = c)).map (·.2)).sum * keyword_weight)) :=
  ⟨by decide, by decide,
    c6_combine_formula "塑料瓶" [(RECYCLABLE, 1/2), (OTHER, 1/2)]
      [(plastic_bottle_item, 1)] (by decide) (by decide)⟩

/-! ## Variance lemmas for the texture contrast feature -/

theorem sum_map_sq_nonneg (xs : List ℚ) (c : ℚ) :
    0 ≤ (xs.map (fun x => (x - c) ^ 2)).sum := by
  induction xs with
  | nil => simp
  | cons x rest ih =>
    simp only [List.map_cons, List.sum_cons]
    exact add_nonneg (sq_nonneg _) ih

theorem sum_sq_expand (xs : List ℚ) (c : ℚ) :
    (xs.map (fun x => (x - c) ^ 2)).sum
      = (xs.map (fun x => x ^ 2)).sum - 2 * c * xs.sum + xs.length * c ^ 2 := by
  induction xs with
  | nil => simp
  | cons x rest ih =>
    simp only [List.map_cons, List.sum_cons, List.length_cons]
    rw [ih]
    push_cast
    ring

theorem sq_dev_le_shifted (xs : List ℚ) (c : ℚ) (hne : xs ≠ []) :
    sq_dev_sum xs ≤ (xs.map (fun x => (x - c) ^ 2)).sum := by
  have hn : (0:ℚ) < (xs.length : ℚ) := by
    exact_mod_cast List.length_pos.mpr hne
  unfold sq_dev_sum mean_q
  rw [sum_sq_expand xs c, sum_sq_expand xs (xs.sum / (xs.length : ℚ))]
  have key : (xs.map (fun x => x ^ 2)).sum
      - 2 * (xs.sum / (xs.length : ℚ)) * xs.sum
      + (xs.length : ℚ) * (xs.sum / (xs.length : ℚ)) ^ 2
      = (xs.map (fun x => x ^ 2)).sum - xs.sum ^ 2 / (xs.length : ℚ) := by
    field_simp
    ring
  rw [key]
  have h2 : (xs.length : ℚ) * c ^ 2 - 2 * c * xs.sum + xs.sum ^ 2 / (xs.length : ℚ)
      = ((xs.length : ℚ) * c - xs.sum) ^ 2 / (xs.length : ℚ) := by
    field_simp
    ring
  have h3 : 0 ≤ ((xs.length : ℚ) * c - xs.sum) ^ 2 / (xs.length : ℚ) :=
    div_nonneg (sq_nonneg _) hn.le
  linarith

theorem sum_map_le_card (xs : List ℚ) (f : ℚ → ℚ) (B : ℚ)
    (h : ∀ x ∈ xs, f x ≤ B) :
    (xs.map f).sum ≤ (xs.length : ℚ) * B := by
  induction xs with
  | nil => simp
  | cons x rest ih =>
    simp only [List.map_cons, List.sum_cons, List.length_cons]
    have h1 := h x (List.mem_cons_self _ _)
    have h2 := ih (fun y hy => h y (List.mem_cons_of_mem _ hy))
    push_cast
    linarith

/-- C8 counterexample: on the two grayscale samples [0, 255] the source's
`statistics.stdev` is the Bessel-corrected sample deviation, so the
contrast square is 1/2, whereas the claimed population standard deviation
gives 1/4 (compared at the square level; the square root is injective on
nonnegatives). -/
theorem c8_counterexample :
    texture_contrast_sq [0, 255] = 1/2 ∧ spec_contrast_sq [0, 255] = 1/4
      ∧ ((1:ℚ)/2 ≠ 1/4) := by
  decide

/-- C8 (amended): the contrast equals the Bessel-corrected sample standard
deviation of the grayscale samples divided by 255 (not the population
deviation); its square lies in [0, 1] for byte-valued samples, and it is 0
when there are fewer than 2 samples. -/
theorem c8_contrast_bounds (gray : List ℕ) (h255 : ∀ p ∈ gray, p ≤ 255) :
    0 ≤ texture_contrast_sq gray ∧ texture_contrast_sq gray ≤ 1
      ∧ (gray.length ≤ 1 → texture_contrast_sq gray = 0) := by
  unfold texture_contrast_sq
  by_cases hlen : 1 < gray.length
  · rw [if_pos hlen]
    have hxslen : (to_q gray).length = gray.length := by
      simp [to_q]
    have hne : to_q gray ≠ [] := by
      intro hnil
      rw [← List.length_eq_zero, hxslen] at hnil
      omega
    have hn2 : (2:ℚ) ≤ ((to_q gray).length : ℚ) := by
      rw [hxslen]
      exact_mod_cast hlen
    have hdenpos : (0:ℚ) < ((to_q gray).length : ℚ) - 1 := by
      linarith
    have hdev : 0 ≤ sq_dev_sum (to_q gray) :=
      sum_map_sq_nonneg _ _
    have hvarnn : 0 ≤ sample_variance (to_q gray) :=
      div_nonneg hdev hdenpos.le
    have hpoint : ∀ x ∈ to_q gray, (x - 255/2) ^ 2 ≤ (255/2) ^ 2 := by
      intro x hx
      simp only [to_q] at hx
      obtain ⟨p, hp, rfl⟩ := List.mem_map.mp hx
      have h0 : (0:ℚ) ≤ (p : ℚ) := by positivity
      have hup : (p : ℚ) ≤ 255 := by exact_mod_cast h255 p hp
      nlinarith
    have hsum := sum_map_le_card (to_q gray)
      (fun x => (x - 255/2) ^ 2) ((255/2) ^ 2) hpoint
    have h1 : sq_dev_sum (to_q gray)
        ≤ ((to_q gray).length : ℚ) * (255/2) ^ 2 :=
      le_trans (sq_dev_le_shifted _ (255/2) hne) hsum
    have hvar : sample_variance (to_q gray) ≤ 255 ^ 2 := by
      unfold sample_variance
      rw [div_le_iff₀ hdenpos]
      nlinarith
    refine ⟨div_nonneg hvarnn (by norm_num), ?_, ?_⟩
    · rw [div_le_one (by norm_num : (0:ℚ) < 255 ^ 2)]
      exact hvar
    · intro hle
      omega
  · rw [if_neg hlen]
    norm_num

/-- C8 witness: the amended bounds evaluated on the concrete sample list
[0, 100, 255]. -/
theorem c8_witness :
    0 ≤ texture_contrast_sq [0, 100, 255]
      ∧ texture_contrast_sq [0, 100, 255] ≤ 1
      ∧ (([0, 100, 255] : List ℕ).length ≤ 1 → texture_contrast_sq [0, 100, 255] = 0) :=
  c8_contrast_bounds [0, 100, 255] (by decide)

end GarbageSys
